import Mathlib

/-!
# Scheduler utility actors of the actor framework

A shallow embedding of `libcaf_core/src/abstract_coordinator.cpp`:

* the delayed-message timer (`timer_actor::act`, `insert_dmsg`, `deliver`);
* the output multiplexer (`printer_loop`, `flush_output`, `flush_if_needed`).

Conventions of the embedding.

* `hrc::time_point` is a tick count of 64 bits. It is held as a natural number, the
  ticks counted from the least value of the tick count, so that the order of the
  numbers is the order of the time points; adding a `duration` wraps around at
  `2 ^ 64` (`time_point_add`). A `duration` is held as the number of ticks it stands
  for.
* `std::multimap<hrc::time_point, delayed_msg>` is a list of key/value pairs kept in
  key order; `insert` places a new pair behind every pair whose key is not greater
  (the upper bound of the equal range, as the C++11 standard requires), `begin` is
  the head, `erase(begin)` the tail.
* `std::map<actor_addr, std::string>` is an association list with unique keys.
* `std::string` is a list of characters; `back()` of an empty string is undefined
  and is modelled by `none`.
* Everything the environment decides (the values returned by `hrc::now()`, what a
  wait on the mailbox yields) is read from a finite script, the `world`.
* Effects (calls of `enqueue`, writes to `std::cout`, waits) are recorded in a trace.
-/

namespace caf

/-! ## Basic types -/

/-- Value of `hrc::time_point`: a tick count of 64 bits, held as a natural number (the
ticks counted from the least value of the tick count, so `≤` on the numbers is `<=`
on the time points). Every key that the timer computes is below `2 ^ 64`
(`time_point_add`). -/
abbrev time_point := Nat

/-- Value of `caf::duration`: the number of clock ticks it stands for. -/
abbrev duration := Nat

/-- Identity of an actor (`actor_addr`). -/
abbrev actor_addr := Nat

/-- The distinguished address `invalid_actor_addr`. -/
def invalid_actor_addr : actor_addr := 0

/-- Destination of a message (`channel`). -/
abbrev channel := Nat

/-- Correlation token (`message_id`). -/
abbrev message_id := Nat

/-- Text (`std::string`). -/
abbrev string := List Char

/-- Content of a mailbox element, by the shapes the two services match on. -/
inductive message where
  /-- The tuple `(duration, actor_addr, channel, message_id, message)`. -/
  | delayed (d : duration) (from_ : actor_addr) (to_ : channel) (mid : message_id)
      (msg : message)
  /-- An `exit_msg`. -/
  | exit_msg (source : actor_addr) (reason : Nat)
  /-- A `down_msg`. -/
  | down_msg (source : actor_addr) (reason : Nat)
  /-- The tuple `(atom("add"), std::string)`. -/
  | add (str : string)
  /-- The tuple `(atom("flush"))`. -/
  | flush
  /-- Any other content. -/
  | other (tag : Nat)
  deriving DecidableEq, Repr

/-- Element of a mailbox: the sender, the correlation id and the content. -/
structure mailbox_element where
  sender : actor_addr
  mid : message_id
  msg : message
  deriving DecidableEq, Repr

/-! ## Timer: data -/

/-- The record `delayed_msg` (source lines 54-59). -/
structure delayed_msg where
  from_ : actor_addr
  to_ : channel
  mid : message_id
  msg : message
  deriving DecidableEq, Repr

/-- One call `to->enqueue(from, mid, msg, nullptr)`. -/
structure enqueue_call where
  to_ : channel
  from_ : actor_addr
  mid : message_id
  msg : message
  deriving DecidableEq, Repr

/-- The function `deliver` (source lines 61-63): the call it makes. -/
def deliver (dm : delayed_msg) : enqueue_call :=
  ⟨dm.to_, dm.from_, dm.mid, dm.msg⟩

/-- The container `std::multimap<hrc::time_point, delayed_msg>`. -/
abbrev multimap := List (time_point × delayed_msg)

/-- Representation invariant of the multimap: keys never decrease along the list. -/
abbrev ordered (m : multimap) : Prop :=
  m.Pairwise (fun a b => a.1 ≤ b.1)

/-- The member `std::multimap::insert`: the pair goes behind all pairs whose key
is not greater than its own. -/
def multimap_insert (kv : time_point × delayed_msg) : multimap → multimap
  | [] => [kv]
  | x :: xs => if kv.1 < x.1 then kv :: x :: xs else x :: multimap_insert kv xs

/-- The values read from the environment by the timer: what the successive calls of
`hrc::now()` return, and what the successive waits on the mailbox yield
(`some e`: element `e` is taken from the mailbox; `none`: the deadline of the wait
passes while the mailbox is empty). -/
structure world where
  clock : List time_point
  arrivals : List (Option mailbox_element)
  deriving DecidableEq, Repr

/-- The call `hrc::now()`: the next value of the clock script. -/
def now (w : world) : Option (time_point × world) :=
  match w.clock with
  | [] => none
  | t :: rest => some (t, { w with clock := rest })

/-- The number of values of the tick count of an `hrc::time_point`: `2 ^ 64`. -/
def time_point_range : Nat := 18446744073709551616

/-- Modelled from the spec: `operator+=` of a time point and a `duration` is declared
in a header that is not part of the sources; "due time = current time + duration".
The result is again an `hrc::time_point`, a tick count of 64 bits: a sum that leaves
the range wraps around. -/
def time_point_add (tp : time_point) (d : duration) : time_point :=
  (tp + d) % time_point_range

/-- The function `insert_dmsg` (source lines 65-71); `t` is the value its call of
`hrc::now()` returned. -/
def insert_dmsg (storage : multimap) (t : time_point) (d : duration)
    (from_ : actor_addr) (to_ : channel) (mid : message_id) (msg : message) : multimap :=
  let tout := t
  let tout := time_point_add tout d
  let dmsg : delayed_msg := ⟨from_, to_, mid, msg⟩
  multimap_insert (tout, dmsg) storage

/-- What the timer does, in the order it does it. -/
inductive timer_event where
  /-- Line 120: `hrc::now()` returned `tout`. -/
  | sampled (tout : time_point)
  /-- Line 124: `deliver` on the entry with key `due`, inside the drain that sampled
  `tout`. -/
  | sent (tout : time_point) (due : time_point) (call : enqueue_call)
  /-- Lines 118 and 130: the timer starts to wait for a message, without deadline
  (`dequeue`) or until `tp` (`try_dequeue(tp)`). -/
  | wait (deadline : Option time_point)
  /-- The wait returned an element of the mailbox. -/
  | received (e : mailbox_element)
  /-- The wait of `try_dequeue` returned a null pointer: the deadline passed. -/
  | expired
  /-- Lines 102-106: the scheduling handler ran; `t` is the instant `insert_dmsg`
  sampled. -/
  | inserted (t : time_point) (d : duration) (dm : delayed_msg)
  /-- Lines 107-109: the exit handler ran. -/
  | exit_handled
  /-- Lines 110-112: the catch-all handler logged the message. -/
  | unexpected (msg : message)
  deriving DecidableEq, Repr

/-- The member `next_message` of the actor: takes the first element out of the
mailbox. Nothing is returned when the script offers no element. -/
def next_message (w : world) : Option (mailbox_element × world) :=
  match w.arrivals with
  | some e :: rest => some (e, { w with arrivals := rest })
  | _ => none

/-- The member `timer_actor::dequeue` (lines 75-78): waits without deadline, then
takes the element. A script that is exhausted, or that lets a deadline pass where
there is none, yields nothing: the timer stays blocked. -/
def dequeue (w : world) : Option (mailbox_element × world) :=
  next_message w

/-- The member `timer_actor::await_data(tp)` (lines 80-85): whether data is there
before `tp` passes. -/
def await_data (_tp : time_point) (w : world) : Option (Bool × world) :=
  match w.arrivals with
  | [] => none
  | some _ :: _ => some (true, w)
  | none :: rest => some (false, { w with arrivals := rest })

/-- The member `timer_actor::try_dequeue(tp)` (lines 87-92): the next element, or a
null pointer when the deadline passes first. -/
def try_dequeue (tp : time_point) (w : world) : Option (Option mailbox_element × world) :=
  match await_data tp w with
  | none => none
  | some (true, w1) =>
    match next_message w1 with
    | none => none
    | some (e, w2) => some (some e, w2)
  | some (false, w1) => some (none, w1)

/-- The local variables of `timer_actor::act` (lines 97-99). -/
structure timer_state where
  received_exit : Bool
  msg_ptr : Option mailbox_element
  messages : multimap
  deriving DecidableEq, Repr

/-- The state in which `act` enters its loop. -/
def timer_init : timer_state := ⟨false, none, []⟩

/-- The message handler `mfun` (lines 101-113). The scheduling handler needs one
clock value; without it nothing is returned. -/
def mfun (s : timer_state) (w : world) (msg : message) :
    Option (timer_state × world × List timer_event) :=
  match msg with
  | .delayed d from_ to_ mid m =>
    match now w with
    | none => none
    | some (t, w1) =>
      some ({ s with messages := insert_dmsg s.messages t d from_ to_ mid m }, w1,
        [.inserted t d ⟨from_, to_, mid, m⟩])
  | .exit_msg _ _ => some ({ s with received_exit := true }, w, [.exit_handled])
  | m => some (s, w, [.unexpected m])

/-- The drain loop (lines 122-127): while the first entry is due at `tout`, deliver
it and erase it. Returns the deliveries and the multimap that is left. -/
def drain (tout : time_point) : multimap → List timer_event × multimap
  | [] => ([], [])
  | (k, dm) :: rest =>
    if k ≤ tout then
      ((timer_event.sent tout k (deliver dm)) :: (drain tout rest).1, (drain tout rest).2)
    else ([], (k, dm) :: rest)

/-- How a step, or a run, of a loop ended. -/
inductive status where
  /-- The loop goes on. -/
  | running
  /-- The loop condition was false: the function returns. -/
  | exited
  /-- The script of the environment has no value for the pending read or wait. -/
  | blocked
  /-- The step budget of the run is used up. -/
  | out_of_fuel
  deriving DecidableEq, Repr

/-- A state of the timer together with what is left of the script, the events that
happened and how things stand. -/
structure timer_result where
  state : timer_state
  env : world
  trace : List timer_event
  stat : status
  deriving DecidableEq, Repr

/-- One step of the loops of `timer_actor::act` (lines 115-136), taken at a loop head.

* `msg_ptr` set: the inner loop has ended; lines 134-135 run.
* `msg_ptr` null and `received_exit` set: the outer condition fails, `act` returns.
* otherwise: one pass through the body of the inner loop (lines 117-132). -/
def act_step (s : timer_state) (w : world) : timer_result :=
  match s.msg_ptr with
  | some e =>
    match mfun s w e.msg with
    | none => ⟨s, w, [], .blocked⟩
    | some (s1, w1, ev) => ⟨{ s1 with msg_ptr := none }, w1, ev, .running⟩
  | none =>
    if s.received_exit then ⟨s, w, [], .exited⟩
    else if s.messages.isEmpty then
      match dequeue w with
      | none => ⟨s, w, [.wait none], .blocked⟩
      | some (e, w1) => ⟨{ s with msg_ptr := some e }, w1, [.wait none, .received e], .running⟩
    else
      match now w with
      | none => ⟨s, w, [], .blocked⟩
      | some (tout, w1) =>
        let sent := (drain tout s.messages).1
        let rest := (drain tout s.messages).2
        match rest with
        | [] => ⟨{ s with messages := rest }, w1, .sampled tout :: sent, .running⟩
        | (tp, _) :: _ =>
          match try_dequeue tp w1 with
          | none =>
            ⟨{ s with messages := rest }, w1,
              .sampled tout :: sent ++ [.wait (some tp)], .blocked⟩
          | some (none, w2) =>
            ⟨{ s with messages := rest }, w2,
              .sampled tout :: sent ++ [.wait (some tp), .expired], .running⟩
          | some (some e, w2) =>
            ⟨{ s with messages := rest, msg_ptr := some e }, w2,
              .sampled tout :: sent ++ [.wait (some tp), .received e], .running⟩

/-- The loops of `timer_actor::act`, for at most `fuel` steps. -/
def act_loop : Nat → timer_state → world → timer_result
  | 0, s, w => ⟨s, w, [], .out_of_fuel⟩
  | fuel + 1, s, w =>
    match act_step s w with
    | ⟨s1, w1, ev, .running⟩ =>
      let r := act_loop fuel s1 w1
      { r with trace := ev ++ r.trace }
    | r => r

/-- The member `timer_actor::act` (lines 94-137). -/
def act (fuel : Nat) (w : world) : timer_result :=
  act_loop fuel timer_init w

/-- The deliveries of a drain, written out: one `sent` event per pair. -/
def sent_events (tout : time_point) (m : multimap) : List timer_event :=
  m.map (fun kv => timer_event.sent tout kv.1 (deliver kv.2))

/-- What can follow the deliveries of a drain step in the trace, with the multimap
`rest` left by the drain, the message pointer and the status that go with it:
nothing when `rest` is empty (no wait, the inner loop goes round); otherwise a wait
until the key `tp` of the first entry of `rest`, which the script leaves pending, or
which ends by expiry, or which ends with element `e`. -/
def drain_tail (rest : multimap) (tl : List timer_event) (ptr : Option mailbox_element)
    (st : status) : Prop :=
  (rest = [] ∧ tl = [] ∧ ptr = none ∧ st = .running) ∨
  ∃ tp dm rest1, rest = (tp, dm) :: rest1 ∧
    ((tl = [.wait (some tp)] ∧ ptr = none ∧ st = .blocked) ∨
     (tl = [.wait (some tp), .expired] ∧ ptr = none ∧ st = .running) ∨
     ∃ e, tl = [.wait (some tp), .received e] ∧ ptr = some e ∧ st = .running)

/-! ## Timer: reading a trace -/

/-- The entries of a multimap with key `k`, as the calls that deliver them. -/
def pending_at (k : time_point) (m : multimap) : List enqueue_call :=
  (m.filter (fun kv => decide (kv.1 = k))).map (fun kv => deliver kv.2)

/-- The call that an accepted scheduling request with due time `k` will make. -/
def accepted_call (k : time_point) : timer_event → Option enqueue_call
  | .inserted t d dm => if time_point_add t d = k then some (deliver dm) else none
  | _ => none

/-- The call of a delivery of an entry with key `k`. -/
def delivered_call (k : time_point) : timer_event → Option enqueue_call
  | .sent _ due c => if due = k then some c else none
  | _ => none

/-- The scheduling requests with due time `k` that a trace accepts, in order. -/
def accepted_at (k : time_point) (tr : List timer_event) : List enqueue_call :=
  tr.filterMap (accepted_call k)

/-- The deliveries of entries with key `k` that a trace makes, in order. -/
def delivered_at (k : time_point) (tr : List timer_event) : List enqueue_call :=
  tr.filterMap (delivered_call k)

/-- Events that neither accept a scheduling request nor deliver anything. -/
def quiet : timer_event → Bool
  | .sent _ _ _ => false
  | .inserted _ _ _ => false
  | _ => true

/-- Events that record the run of one of the three message handlers of `mfun`. -/
def handler_event : timer_event → Bool
  | .inserted _ _ _ => true
  | .exit_handled => true
  | .unexpected _ => true
  | _ => false

/-! ## Output multiplexer: data -/

/-- The container `std::map<actor_addr, std::string>` (line 142). -/
abbrev out_map := List (actor_addr × string)

/-- The member `std::map::find`: the text stored for `s`, if there is an entry. -/
def out_find (out : out_map) (s : actor_addr) : Option string :=
  match out with
  | [] => none
  | kv :: rest => if kv.1 = s then some kv.2 else out_find rest s

/-- The member `std::map::insert`: adds the pair unless the key has an entry. -/
def out_insert (out : out_map) (s : actor_addr) (str : string) : out_map :=
  match out_find out s with
  | some _ => out
  | none => (s, str) :: out

/-- Assignment to `i->second` where `i` points to the entry of `s`. -/
def out_assign (out : out_map) (s : actor_addr) (str : string) : out_map :=
  match out with
  | [] => []
  | kv :: rest =>
    if kv.1 = s then (kv.1, str) :: out_assign rest s str else kv :: out_assign rest s str

/-- The member `std::map::erase(key)`. -/
def out_erase (out : out_map) (s : actor_addr) : out_map :=
  match out with
  | [] => []
  | kv :: rest => if kv.1 = s then out_erase rest s else kv :: out_erase rest s

/-- What the output multiplexer does, in the order it does it. -/
inductive printer_event where
  /-- Lines 148 and 155: `std::cout << text << std::flush`; `owner` is the sender
  whose buffer `text` was. -/
  | cout (owner : actor_addr) (text : string)
  /-- Line 170: `self->monitor(s)`. -/
  | monitor (s : actor_addr)
  /-- Line 187: the catch-all handler reports the message on `std::cerr`. -/
  | cerr (msg : message)
  deriving DecidableEq, Repr

/-- The lambda `flush_output` (lines 143-152) for sender `s`: the texts written to
`std::cout` and the map afterwards. -/
def flush_output (out : out_map) (s : actor_addr) : List string × out_map :=
  match out_find out s with
  | some line => if line ≠ [] then ([line], out_assign out s []) else ([], out)
  | none => ([], out)

/-- The lambda `flush_if_needed` (lines 153-158) on the text `str`: the texts written
to `std::cout` and the value of `str` afterwards. `str.back()` has no defined value
on an empty text; then nothing is returned. -/
def flush_if_needed (str : string) : Option (List string × string) :=
  match str.getLast? with
  | none => none
  | some c => if c = '\n' then some ([str], []) else some ([], str)

/-- The local variables of `printer_loop` (lines 142 and 159). -/
structure printer_state where
  running : Bool
  out : out_map
  deriving DecidableEq, Repr

/-- The state in which `printer_loop` enters its receive loop. -/
def printer_init : printer_state := ⟨true, []⟩

/-- The handlers of `printer_loop` (lines 161-189) on one mailbox element. Nothing is
returned when the behaviour is undefined. -/
def printer_handle (st : printer_state) (e : mailbox_element) :
    Option (printer_state × List printer_event) :=
  match e.msg with
  | .add str =>
    let s := e.sender
    if str = [] ∨ s = invalid_actor_addr then some (st, [])
    else
      match out_find st.out s with
      | none =>
        match flush_if_needed str with
        | none => none
        | some (wr, str1) =>
          some ({ st with out := out_assign (out_insert st.out s str) s str1 },
            .monitor s :: wr.map (printer_event.cout s))
      | some line =>
        match flush_if_needed (line ++ str) with
        | none => none
        | some (wr, str1) =>
          some ({ st with out := out_assign st.out s str1 },
            wr.map (printer_event.cout s))
  | .flush =>
    some ({ st with out := (flush_output st.out e.sender).2 },
      (flush_output st.out e.sender).1.map (printer_event.cout e.sender))
  | .down_msg source _ =>
    some ({ st with out := out_erase (flush_output st.out source).2 source },
      (flush_output st.out source).1.map (printer_event.cout source))
  | .exit_msg _ _ => some ({ st with running := false }, [])
  | m => some (st, [.cerr m])

/-- The function `printer_loop` (lines 140-191) on the elements its mailbox holds, in
the order of their arrival: `receive_while` handles one element per round as long
as `running` holds. -/
def printer_loop (st : printer_state) : List mailbox_element →
    Option (printer_state × List printer_event)
  | [] => some (st, [])
  | e :: rest =>
    if st.running then
      match printer_handle st e with
      | none => none
      | some (st1, ev) =>
        match printer_loop st1 rest with
        | none => none
        | some (st2, tr) => some (st2, ev ++ tr)
    else some (st, [])

/-- The texts a trace writes to `std::cout`, in order. -/
def couts (tr : List printer_event) : List string :=
  tr.filterMap (fun ev => match ev with
    | .cout _ text => some text
    | _ => none)

/-- Whether a text ends with a line terminator. -/
def ends_line (str : string) : Bool :=
  str.getLast? = some '\n'

/-- The text the entry of `s` holds once `str` is appended to it: `str` itself for a
new entry (line 168), the old text followed by `str` otherwise (line 172). -/
def buffer_after_append (out : out_map) (s : actor_addr) (str : string) : string :=
  match out_find out s with
  | some line => line ++ str
  | none => str

/-- The characters a trace writes to `std::cout`, in order, each with the sender for
whose buffer it is written. -/
def sink_chars : List printer_event → List (actor_addr × Char)
  | [] => []
  | .cout s text :: tr => text.map (fun c => (s, c)) ++ sink_chars tr
  | _ :: tr => sink_chars tr

/-- The lines of a stream of characters: a line ends with its line terminator; the
characters behind the last terminator form a last, unterminated line. `cur` is the
begin of the current line. -/
def split_lines (cur : List (actor_addr × Char)) :
    List (actor_addr × Char) → List (List (actor_addr × Char))
  | [] => if cur = [] then [] else [cur]
  | x :: xs =>
    if x.2 = '\n' then (cur ++ [x]) :: split_lines [] xs else split_lines (cur ++ [x]) xs

/-- The lines of the output that a trace produces on `std::cout`. -/
def sink_lines (tr : List printer_event) : List (List (actor_addr × Char)) :=
  split_lines [] (sink_chars tr)

/-- All characters of the line are written for the same sender. -/
abbrev single_sender (line : List (actor_addr × Char)) : Prop :=
  ∀ a ∈ line, ∀ b ∈ line, a.1 = b.1

/-- Whether the element, handled in state `st`, is no flush request and no termination
notification that finds a non-empty text to write (lines 176-182). -/
def idle_flush (st : printer_state) (e : mailbox_element) : Bool :=
  match e.msg with
  | .flush => (flush_output st.out e.sender).1 = []
  | .down_msg source _ => (flush_output st.out source).1 = []
  | _ => true

/-- Whether, in the run of `printer_loop` from `st` on the mailbox, no flush request
and no termination notification finds a non-empty text to write. -/
def idle_flushes (st : printer_state) : List mailbox_element → Bool
  | [] => true
  | e :: rest =>
    if st.running then
      idle_flush st e &&
        match printer_handle st e with
        | some (st1, _) => idle_flushes st1 rest
        | none => true
    else true

/-- Lines 166-173 of the add handler, for a non-empty fragment `str` of the valid
sender `s`: the map with the fragment stored, the calls of `monitor` made, and the
text `i->second` that is handed to `flush_if_needed` in line 174. -/
def add_to_buffer (out : out_map) (s : actor_addr) (str : string) :
    out_map × List printer_event × string :=
  match out_find out s with
  | none => (out_insert out s str, [.monitor s], str)
  | some line => (out_assign out s (line ++ str), [], line ++ str)

/-- The senders a trace starts to monitor, in order. -/
def monitors (tr : List printer_event) : List actor_addr :=
  tr.filterMap (fun ev => match ev with
    | .monitor s => some s
    | _ => none)

/-- The keys of the map: the senders that have an entry. -/
def out_keys (out : out_map) : List actor_addr :=
  out.map Prod.fst

/-- Line 174 of the add handler: `flush_if_needed` on the text `i->second` that
`add_to_buffer` left, and what the handler has done when it returns. Nothing is
returned when `flush_if_needed` reads the last character of an empty text. -/
def flush_added (running : Bool) (s : actor_addr)
    (b : out_map × List printer_event × string) :
    Option (printer_state × List printer_event) :=
  match flush_if_needed b.2.2 with
  | none => none
  | some (wr, str1) =>
    some (⟨running, out_assign b.1 s str1⟩, b.2.1 ++ wr.map (printer_event.cout s))

/-- Whether the element is an append request, the tuple `(atom("add"), str)`. -/
def is_append (e : mailbox_element) : Bool :=
  match e.msg with
  | .add _ => true
  | _ => false

/-- The texts a trace writes to `std::cout` for the buffer of sender `s`, in order. -/
def writes_for (s : actor_addr) (tr : List printer_event) : List string :=
  tr.filterMap (fun ev => match ev with
    | .cout owner text => if owner = s then some text else none
    | _ => none)

/-- The fragments that sender `s` appends in a mailbox, in order. -/
def fragments_of (s : actor_addr) (mailbox : List mailbox_element) : List string :=
  mailbox.filterMap (fun e => match e.msg with
    | .add str => if e.sender = s then some str else none
    | _ => none)

/-- Whether the element is neither a flush request of `s`, nor the termination
notification of `s`, nor an exit signal for the output multiplexer itself. -/
def undisturbed (s : actor_addr) (e : mailbox_element) : Bool :=
  match e.msg with
  | .flush => e.sender ≠ s
  | .down_msg source _ => source ≠ s
  | .exit_msg _ _ => false
  | _ => true

/-- The text that `s` has in the map; empty without an entry. -/
def buffer_of (out : out_map) (s : actor_addr) : string :=
  match out_find out s with
  | some line => line
  | none => []

/-- The fragments put one behind the other. -/
def concat_all : List string → string
  | [] => []
  | f :: fs => f ++ concat_all fs

/-- What a sender whose text is `b` gets written when it appends the fragments one
after the other: each fragment goes behind the text, and a text that ends with a
line terminator is written and emptied. -/
def expected_writes (b : string) : List string → List string
  | [] => []
  | f :: fs =>
    if ends_line (b ++ f) = true then (b ++ f) :: expected_writes [] fs
    else expected_writes (b ++ f) fs

/-! ## Coordinator -/

/-- Handle of an actor (`actor`). -/
abbrev actor := actor_addr

/-- The handle that refers to no actor (`invalid_actor`), the value of a handle that
was never set. -/
def invalid_actor : actor := invalid_actor_addr

/-- Modelled from the spec: the class `abstract_coordinator` is declared in a header
that is not part of the sources; these are the members that the source file names.
"Coordinator state: worker count (fixed at construction), round-robin next-worker
index, handles to Timer Service and Output Multiplexer". -/
structure abstract_coordinator where
  m_next_worker : Nat
  m_num_workers : Nat
  m_timer : actor
  m_printer : actor
  deriving DecidableEq, Repr

/-- The constructor `abstract_coordinator::abstract_coordinator(size_t nw)` (lines
230-234): the cursor starts at 0, the worker count is `nw`; the two handles are not
mentioned and so are not set. -/
def abstract_coordinator.ctor (nw : Nat) : abstract_coordinator :=
  { m_next_worker := 0, m_num_workers := nw, m_timer := invalid_actor,
    m_printer := invalid_actor }

/-- The member ` abstract_coordinator.initialize ` (lines 208-213); `timer` and
`printer` are the handles that the two calls of `spawn` return. -/
def abstract_coordinator.initialize (c : abstract_coordinator) (timer printer : actor) :
    abstract_coordinator :=
  let c1 := { c with m_timer := timer }
  { c1 with m_printer := printer }

/-- The reason `exit_reason::user_shutdown`; its value is declared outside the
sources and nothing depends on it. -/
def user_shutdown : Nat := 16

/-- What `stop_actors` does, in the order it does it. -/
inductive stop_event where
  /-- Lines 218-219: `self->monitor(a)`. -/
  | monitor (a : actor)
  /-- Lines 220-221: `anon_send_exit(a, reason)`. -/
  | send_exit (a : actor) (reason : Nat)
  /-- Lines 224-226: the handler for `down_msg` ran on the notification of `source`. -/
  | down_handled (source : actor_addr)
  deriving DecidableEq, Repr

/-- Modelled from the spec: `receive_for(i, n)` of a blocking actor is declared outside
the sources; "blocks until exactly two termination notifications are observed". It
runs the handler on `n` elements of the mailbox that are a `down_msg`, in the order
of their arrival; an element of another shape is not consumed by this receive. Once
the mailbox script is used up the caller stays blocked. -/
def receive_for : Nat → List mailbox_element → List stop_event × status
  | 0, _ => ([], .exited)
  | _ + 1, [] => ([], .blocked)
  | n + 1, e :: rest =>
    match e.msg with
    | .down_msg source _ =>
      (.down_handled source :: (receive_for n rest).1, (receive_for n rest).2)
    | _ => receive_for (n + 1) rest

/-- The coordinator, the trace and the status at the end of `stop_actors`. -/
structure stop_result where
  coord : abstract_coordinator
  trace : List stop_event
  stat : status
  deriving DecidableEq, Repr

/-- The member `abstract_coordinator::stop_actors` (lines 215-228); `mailbox` holds
what arrives at the scoped actor `self`, in the order of arrival. -/
def abstract_coordinator.stop_actors (c : abstract_coordinator)
    (mailbox : List mailbox_element) : stop_result :=
  { coord := c,
    trace := [.monitor c.m_timer, .monitor c.m_printer,
      .send_exit c.m_timer user_shutdown, .send_exit c.m_printer user_shutdown]
      ++ (receive_for 2 mailbox).1,
    stat := (receive_for 2 mailbox).2 }

/-- Modelled from the spec: `assign_worker` is not part of the sources (of the cursor
they hold only its start value 0, set by the constructor). "Returns the next worker
index by advancing the round-robin cursor modulo worker count"; "never selects an
index ≥ worker count". Meant for a positive worker count. -/
def abstract_coordinator.assign_worker (c : abstract_coordinator) :
    Nat × abstract_coordinator :=
  (c.m_next_worker % c.m_num_workers,
    { c with m_next_worker := (c.m_next_worker + 1) % c.m_num_workers })

/-- The indices that `n` calls of `assign_worker` in sequence return, and the
coordinator afterwards. -/
def assign_workers : Nat → abstract_coordinator → List Nat × abstract_coordinator
  | 0, c => ([], c)
  | n + 1, c =>
    ((abstract_coordinator.assign_worker c).1 ::
        (assign_workers n (abstract_coordinator.assign_worker c).2).1,
      (assign_workers n (abstract_coordinator.assign_worker c).2).2)

/-- Both handles are valid, or both are invalid. -/
def handles_agree (c : abstract_coordinator) : Prop :=
  (c.m_timer = invalid_actor ∧ c.m_printer = invalid_actor) ∨
  (c.m_timer ≠ invalid_actor ∧ c.m_printer ≠ invalid_actor)

/-- The sources of the termination notifications in a mailbox, in order. -/
def down_sources (mailbox : List mailbox_element) : List actor_addr :=
  mailbox.filterMap (fun e => match e.msg with
    | .down_msg source _ => some source
    | _ => none)

/-- The sources of the termination notifications that a trace handles, in order. -/
def downs_handled (tr : List stop_event) : List actor_addr :=
  tr.filterMap (fun ev => match ev with
    | .down_handled source => some source
    | _ => none)

/-- The text that sender `s` hands to a running output multiplexer with the mailbox:
its fragments one behind the other, as far as its appends are accepted (a valid
sender) and handled (they stand before the first exit signal). -/
def own_text (s : actor_addr) : List mailbox_element → string
  | [] => []
  | e :: rest =>
    match e.msg with
    | .exit_msg _ _ => []
    | .add str =>
      if e.sender = s ∧ s ≠ invalid_actor_addr then str ++ own_text s rest
      else own_text s rest
    | _ => own_text s rest

/-! ## Sample values -/

namespace sample

/-- A delayed message "a" for channel 7, requested by actor 3. -/
def dm_a : delayed_msg := ⟨3, 7, 11, .add ['a']⟩

/-- A delayed message "b" for channel 7, requested by actor 3. -/
def dm_b : delayed_msg := ⟨3, 7, 12, .add ['b']⟩

/-- A delayed message "c" for channel 8, requested by actor 4. -/
def dm_c : delayed_msg := ⟨4, 8, 13, .add ['c']⟩

/-- A mailbox element that carries something the timer does not understand. -/
def elem_other : mailbox_element := ⟨5, 0, .other 1⟩

/-- A timer at the head of its inner loop with three pending deliveries. -/
def pending3 : timer_state := ⟨false, none, [(5, dm_a), (5, dm_b), (9, dm_c)]⟩

/-- A script: the clock shows 7, then a message arrives. -/
def world7 : world := ⟨[7], [some elem_other]⟩

/-- A scheduling request: deliver "c" to channel 8 after 100 ticks, for actor 4. -/
def elem_schedule : mailbox_element := ⟨4, 0, .delayed 100 4 8 13 (.add ['c'])⟩

/-- An exit signal. -/
def elem_exit : mailbox_element := ⟨0, 0, .exit_msg 0 1⟩

/-- A script: the clock shows 20. -/
def world20 : world := ⟨[20], []⟩

/-- A script: the clock shows 7, then the deadline of the wait passes. -/
def world7_expiry : world := ⟨[7], [none]⟩

/-- A script: a scheduling request arrives at instant 1; at instant 2 the exit signal
is already in the mailbox; the clock would show 500 afterwards. -/
def world_exit : world := ⟨[1, 2, 500], [some elem_schedule, some elem_exit, none]⟩

/-- An output multiplexer that holds "foo" for sender 1 and "x" for sender 2. -/
def two_buffers : printer_state := ⟨true, [(1, ['f', 'o', 'o']), (2, ['x'])]⟩

/-- Sender 1 appends "bar" and a line terminator. -/
def elem_add_bar : mailbox_element := ⟨1, 0, .add ['b', 'a', 'r', '\n']⟩

/-- An output multiplexer that holds the unterminated text "x" for sender 1. -/
def one_partial : printer_state := ⟨true, [(1, ['x'])]⟩

/-- The termination notification for sender 1. -/
def elem_down_1 : mailbox_element := ⟨0, 0, .down_msg 1 0⟩

/-- Sender 1 appends "y" and a line terminator. -/
def elem_add_y : mailbox_element := ⟨1, 0, .add ['y', '\n']⟩

/-- A mailbox: senders 1 and 2 append pieces of their lines in turn. -/
def mailbox_interleaved : List mailbox_element :=
  [⟨1, 0, .add ['f', 'o']⟩, ⟨2, 0, .add ['x']⟩, ⟨1, 0, .add ['o', '\n']⟩,
    ⟨2, 0, .add ['y', '\n']⟩]

/-- A scheduling request: deliver "a" to channel 7 after 5 ticks, for actor 3. -/
def elem_schedule_a : mailbox_element := ⟨3, 0, .delayed 5 3 7 11 (.add ['a'])⟩

/-- A scheduling request: deliver "b" to channel 7 after 3 ticks, for actor 3. -/
def elem_schedule_b : mailbox_element := ⟨3, 0, .delayed 3 3 7 12 (.add ['b'])⟩

/-- A script: request "a" is accepted at instant 1 and request "b" at instant 3, so
that both are due at instant 6; the clock shows 2 in between and 10 at the end. -/
def world_tie : world := ⟨[1, 2, 3, 10], [some elem_schedule_a, some elem_schedule_b]⟩

/-- Sender 2 asks for a flush. -/
def elem_flush_2 : mailbox_element := ⟨2, 0, .flush⟩

/-- Sender 3, which has no entry yet, appends "hi". -/
def elem_add_hi : mailbox_element := ⟨3, 0, .add ['h', 'i']⟩

/-- An append with an empty fragment by sender 1. -/
def elem_add_empty : mailbox_element := ⟨1, 0, .add []⟩

/-- An append of "z" by the invalid address. -/
def elem_add_invalid : mailbox_element := ⟨0, 0, .add ['z']⟩

/-- A mailbox with every kind of request: appends, a flush, a termination
notification, something unknown and an exit signal. -/
def mailbox_all_kinds : List mailbox_element :=
  [⟨1, 0, .add ['f', 'o']⟩, ⟨2, 0, .add ['x', '\n']⟩, ⟨1, 0, .flush⟩,
    ⟨1, 0, .add ['a', '\n', 'b']⟩, ⟨0, 0, .down_msg 2 0⟩, ⟨4, 0, .other 9⟩,
    ⟨3, 0, .add ['c']⟩, ⟨0, 0, .exit_msg 0 1⟩]

/-- A mailbox with appends only: senders 1, 2 and 3 write in turn, sender 2 writes
two lines with one append. -/
def mailbox_appends : List mailbox_element :=
  [⟨1, 0, .add ['a']⟩, ⟨2, 0, .add ['x', '\n', 'y', '\n']⟩, ⟨3, 0, .add ['p']⟩,
    ⟨1, 0, .add ['b', '\n']⟩, ⟨3, 0, .add ['q', '\n']⟩]

/-- A mailbox: sender 1 appends "foo" and then "bar" with a line terminator, while
sender 2 appends, flushes and terminates in between. -/
def mailbox_foo_bar : List mailbox_element :=
  [⟨1, 0, .add ['f', 'o', 'o']⟩, ⟨2, 0, .add ['x']⟩, ⟨2, 0, .flush⟩,
    ⟨0, 0, .down_msg 2 0⟩, ⟨1, 0, .add ['b', 'a', 'r', '\n']⟩, ⟨2, 0, .add ['y', '\n']⟩]

/-- A coordinator with 3 workers whose services run as actors 101 and 102. -/
def coordinator3 : abstract_coordinator :=
  abstract_coordinator.initialize (abstract_coordinator.ctor 3) 101 102

/-- The mailbox of the scoped actor when the timer terminates first. -/
def downs_timer_first : List mailbox_element :=
  [⟨101, 0, .down_msg 101 16⟩, ⟨102, 0, .down_msg 102 16⟩]

/-- The mailbox of the scoped actor when the output multiplexer terminates first. -/
def downs_printer_first : List mailbox_element :=
  [⟨102, 0, .down_msg 102 16⟩, ⟨101, 0, .down_msg 101 16⟩]

/-- A scheduling request whose duration is ten ticks short of the whole range of the
tick count: deliver "c" to channel 8, for actor 4. -/
def elem_schedule_far : mailbox_element :=
  ⟨4, 0, .delayed 18446744073709551606 4 8 13 (.add ['c'])⟩

/-- A timer that has just taken that request out of its mailbox, with two pending
deliveries. -/
def holding_far : timer_state := ⟨false, some elem_schedule_far, [(50, dm_a), (150, dm_b)]⟩

/-- A script: the request with the long duration arrives and is accepted at instant
20; the next sample of the clock is 21. -/
def world_wrap : world := ⟨[20, 21], [some elem_schedule_far]⟩

end sample

/-! # Theorems -/

/-! ## Timer: facts about the multimap and the drain -/

theorem drain_append (tout : time_point) (m : multimap) :
    ∃ due, (drain tout m).1 = sent_events tout due ∧ due ++ (drain tout m).2 = m ∧
      (∀ kv ∈ due, kv.1 ≤ tout) ∧
      (∀ kv, (drain tout m).2.head? = some kv → tout < kv.1) := by
  induction m with
  | nil => exact ⟨[], by simp [drain, sent_events]⟩
  | cons x xs ih =>
    obtain ⟨k, dm⟩ := x
    obtain ⟨due, h1, h2, h3, h4⟩ := ih
    by_cases hk : k ≤ tout
    · refine ⟨(k, dm) :: due, ?_, ?_, ?_, ?_⟩
      · simp [drain, hk, h1, sent_events]
      · simp [drain, hk, h2]
      · intro kv hkv
        rcases List.mem_cons.mp hkv with h | h
        · subst h; exact hk
        · exact h3 kv h
      · simpa [drain, hk] using h4
    · refine ⟨[], ?_, ?_, ?_, ?_⟩
      · simp [drain, hk, sent_events]
      · simp [drain, hk]
      · intro kv hkv; cases hkv
      · intro kv hkv
        simp [drain, hk] at hkv
        subst hkv
        exact Nat.lt_of_not_le hk

theorem drain_filter (tout : time_point) (m : multimap) (hord : ordered m) :
    (drain tout m).1 = sent_events tout (m.filter (fun kv => decide (kv.1 ≤ tout))) ∧
    (drain tout m).2 = m.filter (fun kv => decide (tout < kv.1)) := by
  induction m with
  | nil => simp [drain, sent_events]
  | cons x xs ih =>
    obtain ⟨k, dm⟩ := x
    have hx := List.pairwise_cons.mp hord
    obtain ⟨h1, h2⟩ := ih hx.2
    by_cases hk : k ≤ tout
    · have hk2 : ¬ tout < k := Nat.not_lt.mpr hk
      constructor
      · simp [drain, hk, h1, sent_events]
      · simp [drain, hk, hk2, h2]
    · have hk2 : tout < k := Nat.lt_of_not_le hk
      have hall : ∀ kv ∈ xs, tout < kv.1 := fun kv hkv => Nat.lt_of_lt_of_le hk2 (hx.1 kv hkv)
      have hf1 : xs.filter (fun kv => decide (kv.1 ≤ tout)) = [] := by
        apply List.filter_eq_nil_iff.mpr
        intro kv hkv
        simpa using hall kv hkv
      have hf2 : xs.filter (fun kv => decide (tout < kv.1)) = xs := by
        apply List.filter_eq_self.mpr
        intro kv hkv
        simpa using hall kv hkv
      constructor
      · simp [drain, hk, sent_events, hf1]
      · simp [drain, hk, hk2, hf2]

theorem drain_ordered (tout : time_point) (m : multimap) (hord : ordered m) :
    ordered (drain tout m).2 := by
  obtain ⟨due, _, h2, _, _⟩ := drain_append tout m
  have hm : ordered (due ++ (drain tout m).2) := by rw [h2]; exact hord
  exact (List.pairwise_append.mp hm).2.1

theorem multimap_insert_split (kv : time_point × delayed_msg) (m : multimap) :
    ∃ l1 l2, m = l1 ++ l2 ∧ multimap_insert kv m = l1 ++ kv :: l2 ∧
      (∀ x ∈ l1, x.1 ≤ kv.1) ∧ (∀ x, l2.head? = some x → kv.1 < x.1) := by
  induction m with
  | nil => exact ⟨[], [], by simp [multimap_insert]⟩
  | cons x xs ih =>
    by_cases hk : kv.1 < x.1
    · exact ⟨[], x :: xs, by simp [multimap_insert, hk]⟩
    · obtain ⟨l1, l2, h1, h2, h3, h4⟩ := ih
      refine ⟨x :: l1, l2, by simp [h1], by simp [multimap_insert, hk, h2], ?_, h4⟩
      intro y hy
      rcases List.mem_cons.mp hy with h | h
      · subst h; exact Nat.le_of_not_lt hk
      · exact h3 y h

theorem multimap_insert_ordered (kv : time_point × delayed_msg) (m : multimap)
    (hord : ordered m) : ordered (multimap_insert kv m) := by
  induction m with
  | nil => simp [multimap_insert]
  | cons x xs ih =>
    have hx := List.pairwise_cons.mp hord
    by_cases hk : kv.1 < x.1
    · simp only [multimap_insert, hk, if_true]
      refine List.pairwise_cons.mpr ⟨?_, hord⟩
      intro y hy
      rcases List.mem_cons.mp hy with h | h
      · subst h; exact Nat.le_of_lt hk
      · exact Nat.le_trans (Nat.le_of_lt hk) (hx.1 y h)
    · simp only [multimap_insert, hk, if_false]
      refine List.pairwise_cons.mpr ⟨?_, ih hx.2⟩
      intro y hy
      obtain ⟨l1, l2, h1, h2, _, _⟩ := multimap_insert_split kv xs
      rw [h2] at hy
      rcases List.mem_append.mp hy with h | h
      · exact hx.1 y (by rw [h1]; exact List.mem_append_left _ h)
      · rcases List.mem_cons.mp h with h | h
        · subst h; exact Nat.le_of_not_lt hk
        · exact hx.1 y (by rw [h1]; exact List.mem_append_right _ h)

/-! ## Timer: the drain step -/

theorem act_step_poll (s : timer_state) (w w1 : world) (tout : time_point)
    (hptr : s.msg_ptr = none) (hrun : s.received_exit = false)
    (hne : s.messages ≠ []) (hnow : now w = some (tout, w1)) :
    (act_step s w).state.messages = (drain tout s.messages).2 ∧
    (act_step s w).state.received_exit = false ∧
    ∃ tl, (act_step s w).trace = .sampled tout :: (drain tout s.messages).1 ++ tl ∧
      drain_tail (act_step s w).state.messages tl (act_step s w).state.msg_ptr
        (act_step s w).stat := by
  have hemp : s.messages.isEmpty = false := by
    cases hm : s.messages with
    | nil => exact absurd hm hne
    | cons _ _ => rfl
  unfold act_step
  simp only [hptr, hrun, hemp, hnow]
  cases hrest : (drain tout s.messages).2 with
  | nil =>
    refine ⟨by simp, by simp [hrun], [], by simp, Or.inl ⟨rfl, rfl, by simp [hptr], rfl⟩⟩
  | cons kv rest =>
    obtain ⟨tp, dm⟩ := kv
    simp only []
    cases htd : try_dequeue tp w1 with
    | none =>
      refine ⟨by simp, by simp [hrun], [.wait (some tp)], by simp,
        Or.inr ⟨tp, dm, rest, rfl, Or.inl ⟨rfl, by simp [hptr], rfl⟩⟩⟩
    | some res =>
      obtain ⟨oe, w2⟩ := res
      cases oe with
      | none =>
        refine ⟨by simp, by simp [hrun], [.wait (some tp), .expired], by simp,
          Or.inr ⟨tp, dm, rest, rfl, Or.inr (Or.inl ⟨rfl, by simp [hptr], rfl⟩)⟩⟩
      | some e =>
        refine ⟨by simp, by simp [hrun], [.wait (some tp), .received e], by simp,
          Or.inr ⟨tp, dm, rest, rfl, Or.inr (Or.inr ⟨e, rfl, by simp, rfl⟩)⟩⟩

/-- C1. Drain step of the timer: with a non-empty (ordered) pending multimap and the
sampled instant `tout`, one pass through the inner loop body delivers exactly the
entries whose key is at most `tout`, in the order of the multimap, which is
ascending in the due time; afterwards the multimap holds exactly the entries with
key greater than `tout`; and in the trace every delivery stands before the wait on
the mailbox (if there is one), so before the next message is taken. -/
theorem timer_drain_step (s : timer_state) (w w1 : world) (tout : time_point)
    (hptr : s.msg_ptr = none) (hrun : s.received_exit = false)
    (hne : s.messages ≠ []) (hord : ordered s.messages)
    (hnow : now w = some (tout, w1)) :
    ordered (s.messages.filter (fun kv => decide (kv.1 ≤ tout))) ∧
    (act_step s w).state.messages = s.messages.filter (fun kv => decide (tout < kv.1)) ∧
    ∃ tl, (act_step s w).trace =
        .sampled tout ::
          sent_events tout (s.messages.filter (fun kv => decide (kv.1 ≤ tout))) ++ tl ∧
      drain_tail (act_step s w).state.messages tl (act_step s w).state.msg_ptr
        (act_step s w).stat := by
  obtain ⟨h1, _, tl, h3, h4⟩ := act_step_poll s w w1 tout hptr hrun hne hnow
  obtain ⟨hd1, hd2⟩ := drain_filter tout s.messages hord
  refine ⟨List.Pairwise.filter _ hord, by rw [h1, hd2], tl, ?_, h4⟩
  rw [h3, hd1]

theorem timer_drain_step_witness :
    (sample.pending3.msg_ptr = none ∧ sample.pending3.received_exit = false ∧
      sample.pending3.messages ≠ [] ∧ ordered sample.pending3.messages ∧
      now sample.world7 = some (7, ⟨[], [some sample.elem_other]⟩)) ∧
    (act_step sample.pending3 sample.world7).trace =
      [.sampled 7, .sent 7 5 (deliver sample.dm_a), .sent 7 5 (deliver sample.dm_b),
        .wait (some 9), .received sample.elem_other] ∧
    (ordered (sample.pending3.messages.filter (fun kv => decide (kv.1 ≤ 7))) ∧
      (act_step sample.pending3 sample.world7).state.messages =
        sample.pending3.messages.filter (fun kv => decide (7 < kv.1)) ∧
      ∃ tl, (act_step sample.pending3 sample.world7).trace =
          .sampled 7 ::
            sent_events 7 (sample.pending3.messages.filter (fun kv => decide (kv.1 ≤ 7)))
              ++ tl ∧
        drain_tail (act_step sample.pending3 sample.world7).state.messages tl
          (act_step sample.pending3 sample.world7).state.msg_ptr
          (act_step sample.pending3 sample.world7).stat) :=
  ⟨⟨rfl, rfl, by decide, by decide, rfl⟩, by decide,
    timer_drain_step sample.pending3 sample.world7 ⟨[], [some sample.elem_other]⟩ 7
      rfl rfl (by decide) (by decide) rfl⟩

/-! ## Timer: what one step does to the multimap -/

theorem drain_tail_quiet (rest : multimap) (tl : List timer_event)
    (ptr : Option mailbox_element) (st : status)
    (h : drain_tail rest tl ptr st) : ∀ e ∈ tl, quiet e = true := by
  intro e he
  rcases h with ⟨_, h, _⟩ | ⟨tp, _, _, _, ⟨h, _⟩ | ⟨h, _⟩ | ⟨e1, h, _⟩⟩ <;> subst h <;>
    simp at he
  · subst he; rfl
  · rcases he with he | he <;> subst he <;> rfl
  · rcases he with he | he <;> subst he <;> rfl

theorem mfun_summary (s s1 : timer_state) (w w1 : world) (msg : message)
    (ev : List timer_event) (h : mfun s w msg = some (s1, w1, ev)) :
    (∃ t d dm, ev = [.inserted t d dm] ∧
      s1.messages = multimap_insert (time_point_add t d, dm) s.messages ∧
      s1.received_exit = s.received_exit ∧ now w = some (t, w1) ∧
      msg = .delayed d dm.from_ dm.to_ dm.mid dm.msg) ∨
    (ev = [.exit_handled] ∧ s1.messages = s.messages ∧ s1.received_exit = true ∧
      w1 = w ∧ ∃ a b, msg = .exit_msg a b) ∨
    (ev = [.unexpected msg] ∧ s1 = s ∧ w1 = w) := by
  cases msg with
  | delayed d f t m p =>
    simp only [mfun] at h
    cases hn : now w with
    | none => simp [hn] at h
    | some tw =>
      obtain ⟨tm, w2⟩ := tw
      simp only [hn, Option.some.injEq, Prod.mk.injEq] at h
      obtain ⟨h1, h2, h3⟩ := h
      subst h1 h2 h3
      exact Or.inl ⟨tm, d, ⟨f, t, m, p⟩, rfl, rfl, rfl, rfl, rfl⟩
  | exit_msg a b =>
    simp only [mfun, Option.some.injEq, Prod.mk.injEq] at h
    obtain ⟨h1, h2, h3⟩ := h
    subst h1 h2 h3
    exact Or.inr (Or.inl ⟨rfl, rfl, rfl, rfl, a, b, rfl⟩)
  | down_msg a b | add a | flush | other a =>
    simp only [mfun, Option.some.injEq, Prod.mk.injEq] at h
    obtain ⟨h1, h2, h3⟩ := h
    subst h1 h2 h3
    exact Or.inr (Or.inr ⟨rfl, rfl, rfl⟩)

theorem act_step_summary (s : timer_state) (w : world) :
    (∃ t d dm, (act_step s w).trace = [.inserted t d dm] ∧
      (act_step s w).state.messages =
        multimap_insert (time_point_add t d, dm) s.messages) ∨
    (∃ tout due tl, (act_step s w).trace = .sampled tout :: sent_events tout due ++ tl ∧
      due ++ (act_step s w).state.messages = s.messages ∧
      (∀ kv ∈ due, kv.1 ≤ tout) ∧ (∀ e ∈ tl, quiet e = true)) ∨
    ((act_step s w).state.messages = s.messages ∧
      ∀ e ∈ (act_step s w).trace, quiet e = true) := by
  cases hptr : s.msg_ptr with
  | some e =>
    cases hm : mfun s w e.msg with
    | none =>
      refine Or.inr (Or.inr ?_)
      simp [act_step, hptr, hm]
    | some res =>
      obtain ⟨s1, w1, ev⟩ := res
      have hr : act_step s w = ⟨{ s1 with msg_ptr := none }, w1, ev, .running⟩ := by
        simp [act_step, hptr, hm]
      rw [hr]
      rcases mfun_summary s s1 w w1 e.msg ev hm with
        ⟨t, d, dm, h1, h2, _⟩ | ⟨h1, h2, _⟩ | ⟨h1, h2, _⟩
      · exact Or.inl ⟨t, d, dm, h1, h2⟩
      · refine Or.inr (Or.inr ⟨h2, ?_⟩)
        subst h1; intro x hx; simp at hx; subst hx; rfl
      · refine Or.inr (Or.inr ⟨by rw [h2], ?_⟩)
        subst h1; intro x hx; simp at hx; subst hx; rfl
  | none =>
    cases hrun : s.received_exit with
    | true =>
      refine Or.inr (Or.inr ?_)
      simp [act_step, hptr, hrun]
    | false =>
      cases hmsg : s.messages with
      | nil =>
        refine Or.inr (Or.inr ?_)
        cases hd : dequeue w with
        | none => simp [act_step, hptr, hrun, hmsg, hd, quiet]
        | some res =>
          obtain ⟨e, w1⟩ := res
          simp [act_step, hptr, hrun, hmsg, hd, quiet]
      | cons kv rest =>
        have hne : s.messages ≠ [] := by simp [hmsg]
        cases hn : now w with
        | none =>
          refine Or.inr (Or.inr ?_)
          simp [act_step, hptr, hrun, hmsg, hn]
        | some tw =>
          obtain ⟨tout, w1⟩ := tw
          obtain ⟨h1, _, tl, h3, h4⟩ := act_step_poll s w w1 tout hptr hrun hne hn
          obtain ⟨due, hd1, hd2, hd3, _⟩ := drain_append tout s.messages
          refine Or.inr (Or.inl ⟨tout, due, tl, ?_, ?_, hd3, drain_tail_quiet _ tl _ _ h4⟩)
          · rw [h3, hd1]
          · rw [h1, hd2, hmsg]

theorem act_step_ordered (s : timer_state) (w : world) (hord : ordered s.messages) :
    ordered (act_step s w).state.messages := by
  rcases act_step_summary s w with ⟨t, d, dm, _, h⟩ | ⟨tout, due, tl, _, h, _⟩ | ⟨h, _⟩
  · rw [h]; exact multimap_insert_ordered _ _ hord
  · have hm : ordered (due ++ (act_step s w).state.messages) := by rw [h]; exact hord
    exact (List.pairwise_append.mp hm).2.1
  · rw [h]; exact hord

/-! ## Timer: runs -/

theorem act_loop_succ (fuel : Nat) (s : timer_state) (w : world) :
    act_loop (fuel + 1) s w =
      if (act_step s w).stat = .running then
        { act_loop fuel (act_step s w).state (act_step s w).env with
          trace := (act_step s w).trace ++
            (act_loop fuel (act_step s w).state (act_step s w).env).trace }
      else act_step s w := by
  rw [act_loop]
  rcases hr : act_step s w with ⟨s1, w1, ev, st⟩
  cases st <;> simp

theorem quiet_accepted_at (k : time_point) (tl : List timer_event)
    (h : ∀ e ∈ tl, quiet e = true) : accepted_at k tl = [] := by
  unfold accepted_at
  apply List.filterMap_eq_nil_iff.mpr
  intro e he
  have := h e he
  cases e <;> simp_all [quiet, accepted_call]

theorem quiet_delivered_at (k : time_point) (tl : List timer_event)
    (h : ∀ e ∈ tl, quiet e = true) : delivered_at k tl = [] := by
  unfold delivered_at
  apply List.filterMap_eq_nil_iff.mpr
  intro e he
  have := h e he
  cases e <;> simp_all [quiet, delivered_call]

theorem delivered_at_sent_events (k tout : time_point) (due : multimap) :
    delivered_at k (sent_events tout due) = pending_at k due := by
  induction due with
  | nil => rfl
  | cons x xs ih =>
    simp only [delivered_at, sent_events, pending_at] at ih ⊢
    by_cases hk : x.1 = k
    · simp [delivered_call, hk, ih]
    · simp [delivered_call, hk, ih]

theorem accepted_at_sent_events (k tout : time_point) (due : multimap) :
    accepted_at k (sent_events tout due) = [] := by
  unfold accepted_at sent_events
  apply List.filterMap_eq_nil_iff.mpr
  intro e he
  obtain ⟨kv, _, hkv⟩ := List.mem_map.mp he
  subst hkv
  rfl

theorem pending_at_append (k : time_point) (a b : multimap) :
    pending_at k (a ++ b) = pending_at k a ++ pending_at k b := by
  simp [pending_at]

theorem pending_at_insert (k : time_point) (kv : time_point × delayed_msg) (m : multimap)
    (hord : ordered m) :
    pending_at k (multimap_insert kv m) =
      pending_at k m ++ (if kv.1 = k then [deliver kv.2] else []) := by
  induction m with
  | nil =>
    by_cases hk : kv.1 = k <;> simp [multimap_insert, pending_at, hk]
  | cons x xs ih =>
    have hx := List.pairwise_cons.mp hord
    by_cases hlt : kv.1 < x.1
    · simp only [multimap_insert, hlt, if_true]
      by_cases hk : kv.1 = k
      · have hnone : pending_at k (x :: xs) = [] := by
          unfold pending_at
          rw [List.filter_eq_nil_iff.mpr]
          · rfl
          · intro y hy
            have hy1 : x.1 ≤ y.1 := by
              rcases List.mem_cons.mp hy with h | h
              · subst h; exact Nat.le_refl _
              · exact hx.1 y h
            have hlt2 : k < y.1 := Nat.lt_of_lt_of_le (hk ▸ hlt) hy1
            simpa using Nat.ne_of_gt hlt2
        have hcons : pending_at k (kv :: x :: xs) = deliver kv.2 :: pending_at k (x :: xs) := by
          simp [pending_at, hk]
        rw [hcons, hnone]; simp [hk]
      · have hcons : pending_at k (kv :: x :: xs) = pending_at k (x :: xs) := by
          simp [pending_at, hk]
        rw [hcons]; simp [hk]
    · simp only [multimap_insert, hlt, if_false]
      have h1 : ∀ l : multimap, pending_at k (x :: l) = pending_at k [x] ++ pending_at k l :=
        fun l => pending_at_append k [x] l
      rw [h1, h1 xs, ih hx.2, List.append_assoc]

theorem act_step_balance (k : time_point) (s : timer_state) (w : world)
    (hord : ordered s.messages) :
    delivered_at k (act_step s w).trace ++ pending_at k (act_step s w).state.messages =
      pending_at k s.messages ++ accepted_at k (act_step s w).trace := by
  rcases act_step_summary s w with
    ⟨t, d, dm, h1, h2⟩ | ⟨tout, due, tl, h1, h2, _, h4⟩ | ⟨h1, h2⟩
  · rw [h1, h2, pending_at_insert k _ _ hord]
    by_cases hk : time_point_add t d = k <;>
      simp [delivered_at, accepted_at, delivered_call, accepted_call, hk]
  · have hd : delivered_at k (act_step s w).trace = pending_at k due := by
      rw [h1]
      have : delivered_at k (timer_event.sampled tout :: sent_events tout due ++ tl) =
          delivered_at k (sent_events tout due) ++ delivered_at k tl := by
        simp [delivered_at, delivered_call]
      rw [this, quiet_delivered_at k tl h4, delivered_at_sent_events]; simp
    have ha : accepted_at k (act_step s w).trace = [] := by
      rw [h1]
      have : accepted_at k (timer_event.sampled tout :: sent_events tout due ++ tl) =
          accepted_at k (sent_events tout due) ++ accepted_at k tl := by
        simp [accepted_at, accepted_call]
      rw [this, quiet_accepted_at k tl h4, accepted_at_sent_events]; simp
    rw [hd, ha, ← pending_at_append, h2]; simp
  · rw [h1, quiet_delivered_at k _ h2, quiet_accepted_at k _ h2]; simp

theorem act_loop_ordered (fuel : Nat) (s : timer_state) (w : world)
    (hord : ordered s.messages) : ordered (act_loop fuel s w).state.messages := by
  induction fuel generalizing s w with
  | zero => exact hord
  | succ n ih =>
    rw [act_loop_succ]
    by_cases hst : (act_step s w).stat = .running
    · simp only [hst, if_true]
      exact ih _ _ (act_step_ordered s w hord)
    · simp only [hst, if_false]
      exact act_step_ordered s w hord

theorem act_loop_balance (k : time_point) (fuel : Nat) (s : timer_state) (w : world)
    (hord : ordered s.messages) :
    delivered_at k (act_loop fuel s w).trace ++
        pending_at k (act_loop fuel s w).state.messages =
      pending_at k s.messages ++ accepted_at k (act_loop fuel s w).trace := by
  induction fuel generalizing s w with
  | zero => simp [act_loop, delivered_at, accepted_at]
  | succ n ih =>
    rw [act_loop_succ]
    by_cases hst : (act_step s w).stat = .running
    · simp only [hst, if_true]
      have h1 := act_step_balance k s w hord
      have h2 := ih (act_step s w).state (act_step s w).env (act_step_ordered s w hord)
      have hd : ∀ a b : List timer_event,
          delivered_at k (a ++ b) = delivered_at k a ++ delivered_at k b := by
        intro a b; simp [delivered_at]
      have ha : ∀ a b : List timer_event,
          accepted_at k (a ++ b) = accepted_at k a ++ accepted_at k b := by
        intro a b; simp [accepted_at]
      rw [hd, ha, List.append_assoc, h2, ← List.append_assoc, h1, List.append_assoc]
    · simp only [hst, if_false]
      exact act_step_balance k s w hord

/-- C2, as stated, fails: a request accepted at instant 20 with a duration ten ticks
short of the range of the tick count gets the key 10, the sum wrapped around; the
drain that samples instant 21 delivers it, long before request time plus
duration. -/
theorem timer_delivers_early_counterexample :
    (act 10 sample.world_wrap).trace =
      [.wait none, .received sample.elem_schedule_far,
        .inserted 20 18446744073709551606 sample.dm_c, .sampled 21,
        .sent 21 10 (deliver sample.dm_c), .wait none] ∧
    ¬ (20 + 18446744073709551606 ≤ 21) := by
  decide

/-- C3. Tie-break of the timer, for every run of `act`: for each due time `k`, the
calls delivered for entries with key `k`, in the order of delivery, followed by the
entries with key `k` still pending at the end, in the order of the multimap, are
exactly the accepted scheduling requests with due time `k` in the order of their
acceptance. So of two requests with the same due time the one accepted first is
delivered first. -/
theorem timer_tie_break (fuel : Nat) (w : world) (k : time_point) :
    delivered_at k (act fuel w).trace ++ pending_at k (act fuel w).state.messages =
      accepted_at k (act fuel w).trace := by
  have h := act_loop_balance k fuel timer_init w (by simp [timer_init])
  have h0 : pending_at k timer_init.messages = [] := rfl
  rw [h0, List.nil_append] at h
  exact h

theorem timer_tie_break_witness :
    accepted_at 6 (act 10 sample.world_tie).trace =
      [deliver sample.dm_a, deliver sample.dm_b] ∧
    delivered_at 6 (act 10 sample.world_tie).trace =
      [deliver sample.dm_a, deliver sample.dm_b] ∧
    delivered_at 6 (act 10 sample.world_tie).trace ++
        pending_at 6 (act 10 sample.world_tie).state.messages =
      accepted_at 6 (act 10 sample.world_tie).trace :=
  ⟨by decide, by decide, timer_tie_break 10 sample.world_tie 6⟩

/-! ## Timer: the scheduling handler -/

/-- C4, as stated, fails: a request with a duration ten ticks short of the range of
the tick count, handled at instant 20, is stored with the key 10 (the sum wrapped
around), not with the due time 20 plus the duration. -/
theorem timer_schedule_request_counterexample :
    act_step sample.holding_far sample.world20 =
      ⟨⟨false, none, [(10, sample.dm_c), (50, sample.dm_a), (150, sample.dm_b)]⟩,
        ⟨[], []⟩, [.inserted 20 18446744073709551606 sample.dm_c], .running⟩ ∧
    (10 : time_point) ≠ 20 + 18446744073709551606 := by
  decide

theorem mem_drain_trace (tout : time_point) (m : multimap) (tl : List timer_event)
    (x : timer_event) (hq : quiet x = true) (hx : ∀ t, x ≠ .sampled t)
    (h : x ∈ timer_event.sampled tout :: (drain tout m).1 ++ tl) : x ∈ tl := by
  obtain ⟨due, hd, _, _, _⟩ := drain_append tout m
  rw [hd] at h
  rcases List.mem_cons.mp h with h | h
  · exact absurd h (hx tout)
  · rcases List.mem_append.mp h with h | h
    · obtain ⟨kv, _, hkv⟩ := List.mem_map.mp h
      subst hkv
      simp [quiet] at hq
    · exact h

theorem drain_trace_no_handler (tout : time_point) (m : multimap) (tl : List timer_event)
    (htl : ∀ e ∈ tl, handler_event e = false) :
    ∀ e ∈ timer_event.sampled tout :: (drain tout m).1 ++ tl, handler_event e = false := by
  obtain ⟨due, hd, _, _, _⟩ := drain_append tout m
  rw [hd]
  intro e he
  rcases List.mem_cons.mp he with h | h
  · subst h; rfl
  · rcases List.mem_append.mp h with h | h
    · obtain ⟨kv, _, hkv⟩ := List.mem_map.mp h
      subst hkv; rfl
    · exact htl e h

/-- C5. Wake deadline of the timer, for a step at the head of the inner loop with an
ordered multimap:

* with an empty multimap the step is a wait without deadline (`dequeue`), and it is
  the only case in which the timer waits without deadline;
* whenever the step waits with a deadline `tp`, the clock was sampled (`tout`), the
  multimap after the step is what the drain left, its first entry has key `tp`, no
  entry has a smaller key, and `tout < tp`;
* a wait that ends by expiry runs no message handler, leaves the message pointer
  null with the loop running and the multimap non-empty, so that the next step
  samples the clock and drains again. -/
theorem timer_wake_deadline (s : timer_state) (w : world)
    (hptr : s.msg_ptr = none) (hrun : s.received_exit = false)
    (hord : ordered s.messages) :
    (s.messages = [] →
      ((act_step s w).trace = [.wait none] ∧ (act_step s w).stat = .blocked) ∨
      ∃ e, (act_step s w).trace = [.wait none, .received e] ∧
        (act_step s w).state.msg_ptr = some e) ∧
    (timer_event.wait none ∈ (act_step s w).trace → s.messages = []) ∧
    (∀ tp, timer_event.wait (some tp) ∈ (act_step s w).trace →
      ∃ tout w1, now w = some (tout, w1) ∧ tout < tp ∧
        (act_step s w).state.messages = (drain tout s.messages).2 ∧
        (∃ dm rest, (act_step s w).state.messages = (tp, dm) :: rest) ∧
        ∀ kv ∈ (act_step s w).state.messages, tp ≤ kv.1) ∧
    (timer_event.expired ∈ (act_step s w).trace →
      (∀ e ∈ (act_step s w).trace, handler_event e = false) ∧
      (act_step s w).state.msg_ptr = none ∧
      (act_step s w).state.received_exit = false ∧
      (act_step s w).state.messages ≠ [] ∧
      (act_step s w).stat = .running ∧
      ∀ w2 t2 w3, now w2 = some (t2, w3) →
        ∃ tl, (act_step (act_step s w).state w2).trace =
          .sampled t2 :: (drain t2 (act_step s w).state.messages).1 ++ tl) := by
  cases hmsg : s.messages with
  | nil =>
    cases hd : dequeue w with
    | none => simp [act_step, hptr, hrun, hmsg, hd]
    | some res =>
      obtain ⟨e, w1⟩ := res
      simp [act_step, hptr, hrun, hmsg, hd]
  | cons kv0 rest0 =>
    have hne : s.messages ≠ [] := by simp [hmsg]
    rw [← hmsg]
    cases hn : now w with
    | none =>
      have ht : (act_step s w).trace = [] := by simp [act_step, hptr, hrun, hmsg, hn]
      rw [ht]
      exact ⟨fun h => absurd h hne, by simp, by simp, by simp⟩
    | some tw =>
      obtain ⟨tout, w1⟩ := tw
      obtain ⟨h1, h2, tl, h3, h4⟩ := act_step_poll s w w1 tout hptr hrun hne hn
      obtain ⟨_, _, _, _, hhead⟩ := drain_append tout s.messages
      have hordr := drain_ordered tout s.messages hord
      rw [← h1] at hhead hordr
      refine ⟨fun h => absurd h hne, ?_, ?_, ?_⟩
      · intro hw
        rw [h3] at hw
        have hw2 := mem_drain_trace tout s.messages tl _ (by rfl) (by intro t; simp) hw
        rcases h4 with ⟨_, h, _⟩ | ⟨tp, _, _, _, ⟨h, _⟩ | ⟨h, _⟩ | ⟨e1, h, _⟩⟩ <;>
          subst h <;> simp at hw2
      · intro tp hw
        rw [h3] at hw
        have hw2 := mem_drain_trace tout s.messages tl _ (by rfl) (by intro t; simp) hw
        have key : ∃ dm rest, (act_step s w).state.messages = (tp, dm) :: rest := by
          rcases h4 with ⟨_, h, _⟩ | ⟨tp1, dm, rest1, hr, ⟨h, _⟩ | ⟨h, _⟩ | ⟨e1, h, _⟩⟩ <;>
            subst h <;> simp at hw2 <;> subst hw2 <;> exact ⟨dm, rest1, hr⟩
        obtain ⟨dm, rest, hr⟩ := key
        refine ⟨tout, w1, rfl, ?_, h1, ⟨dm, rest, hr⟩, ?_⟩
        · exact hhead (tp, dm) (by rw [hr]; rfl)
        · intro kv hkv
          rw [hr] at hkv hordr
          rcases List.mem_cons.mp hkv with h | h
          · subst h; exact Nat.le_refl _
          · exact (List.pairwise_cons.mp hordr).1 kv h
      · intro hx
        rw [h3] at hx
        have hx2 := mem_drain_trace tout s.messages tl _ (by rfl) (by intro t; simp) hx
        have key : ∃ tp dm rest, (act_step s w).state.messages = (tp, dm) :: rest ∧
            tl = [.wait (some tp), .expired] ∧ (act_step s w).state.msg_ptr = none ∧
            (act_step s w).stat = .running := by
          rcases h4 with ⟨_, h, _⟩ |
              ⟨tp1, dm, rest1, hr, ⟨h, _⟩ | ⟨h, hp, hs⟩ | ⟨e1, h, _⟩⟩
          · subst h; simp at hx2
          · subst h; simp at hx2
          · exact ⟨tp1, dm, rest1, hr, h, hp, hs⟩
          · subst h; simp at hx2
        obtain ⟨tp, dm, rest, hr, htl, hp, hs⟩ := key
        have hne2 : (act_step s w).state.messages ≠ [] := by rw [hr]; simp
        refine ⟨?_, hp, h2, hne2, hs, ?_⟩
        · rw [h3]
          apply drain_trace_no_handler
          subst htl
          intro e he
          simp at he
          rcases he with he | he <;> subst he <;> rfl
        · intro w2 t2 w3 hn2
          obtain ⟨_, _, tl2, ht2, _⟩ :=
            act_step_poll (act_step s w).state w2 w3 t2 hp h2 hne2 hn2
          exact ⟨tl2, ht2⟩

theorem timer_wake_deadline_witness :
    (act_step sample.pending3 sample.world7_expiry).trace =
      [.sampled 7, .sent 7 5 (deliver sample.dm_a), .sent 7 5 (deliver sample.dm_b),
        .wait (some 9), .expired] ∧
    (∃ tout w1, now sample.world7_expiry = some (tout, w1) ∧ tout < 9 ∧
      (act_step sample.pending3 sample.world7_expiry).state.messages =
        (drain tout sample.pending3.messages).2 ∧
      (∃ dm rest,
        (act_step sample.pending3 sample.world7_expiry).state.messages = (9, dm) :: rest) ∧
      ∀ kv ∈ (act_step sample.pending3 sample.world7_expiry).state.messages, 9 ≤ kv.1) ∧
    (act_step sample.pending3 sample.world7_expiry).state.msg_ptr = none :=
  ⟨by decide,
    (timer_wake_deadline sample.pending3 sample.world7_expiry rfl rfl (by decide)).2.2.1 9
      (by decide),
    ((timer_wake_deadline sample.pending3 sample.world7_expiry rfl rfl (by decide)).2.2.2
      (by decide)).2.1⟩

/-! ## Timer: termination -/

theorem act_step_exit (s : timer_state) (w : world) :
    act_step s w = ⟨⟨true, none, s.messages⟩, w, [.exit_handled], .running⟩ ∨
    (timer_event.exit_handled ∉ (act_step s w).trace) := by
  cases hptr : s.msg_ptr with
  | some e =>
    cases hm : mfun s w e.msg with
    | none =>
      right
      simp [act_step, hptr, hm]
    | some res =>
      obtain ⟨s1, w1, ev⟩ := res
      have hr : act_step s w = ⟨{ s1 with msg_ptr := none }, w1, ev, .running⟩ := by
        simp [act_step, hptr, hm]
      rw [hr]
      rcases mfun_summary s s1 w w1 e.msg ev hm with
        ⟨t, d, dm, h1, _⟩ | ⟨h1, h2, h3, h4, _⟩ | ⟨h1, _⟩
      · right; subst h1; simp
      · left; subst h1 h4; simp [h2, h3]
      · right; subst h1; simp
  | none =>
    right
    rcases act_step_summary s w with
      ⟨t, d, dm, h1, _⟩ | ⟨tout1, due, tl, h1, _, _, _⟩ | ⟨_, _⟩
    · rw [h1]; simp
    · cases hrun : s.received_exit with
      | true => simp [act_step, hptr, hrun]
      | false =>
        cases hmsg : s.messages with
        | nil =>
          cases hd : dequeue w with
          | none => simp [act_step, hptr, hrun, hmsg, hd]
          | some res => simp [act_step, hptr, hrun, hmsg, hd]
        | cons kv rest =>
          have hne : s.messages ≠ [] := by simp [hmsg]
          cases hn : now w with
          | none => simp [act_step, hptr, hrun, hmsg, hn]
          | some tw =>
            obtain ⟨tout, w1⟩ := tw
            obtain ⟨_, _, tl, h3, h4⟩ := act_step_poll s w w1 tout hptr hrun hne hn
            intro hmem
            rw [h3] at hmem
            have hx := mem_drain_trace tout s.messages tl _ (by rfl) (by intro t; simp) hmem
            rcases h4 with ⟨_, h, _⟩ | ⟨tp, _, _, _, ⟨h, _⟩ | ⟨h, _⟩ | ⟨e1, h, _⟩⟩ <;>
              subst h <;> simp at hx
    · cases hrun : s.received_exit with
      | true => simp [act_step, hptr, hrun]
      | false =>
        cases hmsg : s.messages with
        | nil =>
          cases hd : dequeue w with
          | none => simp [act_step, hptr, hrun, hmsg, hd]
          | some res => simp [act_step, hptr, hrun, hmsg, hd]
        | cons kv rest =>
          have hne : s.messages ≠ [] := by simp [hmsg]
          cases hn : now w with
          | none => simp [act_step, hptr, hrun, hmsg, hn]
          | some tw =>
            obtain ⟨tout, w1⟩ := tw
            obtain ⟨_, _, tl, h3, h4⟩ := act_step_poll s w w1 tout hptr hrun hne hn
            intro hmem
            rw [h3] at hmem
            have hx := mem_drain_trace tout s.messages tl _ (by rfl) (by intro t; simp) hmem
            rcases h4 with ⟨_, h, _⟩ | ⟨tp, _, _, _, ⟨h, _⟩ | ⟨h, _⟩ | ⟨e1, h, _⟩⟩ <;>
              subst h <;> simp at hx

theorem act_loop_stopped (fuel : Nat) (m : multimap) (w : world) :
    act_loop (fuel + 1) ⟨true, none, m⟩ w = ⟨⟨true, none, m⟩, w, [], .exited⟩ := by
  simp [act_loop, act_step]

theorem act_loop_exit_last (fuel : Nat) (s : timer_state) (w : world)
    (pre post : List timer_event)
    (h : (act_loop fuel s w).trace = pre ++ timer_event.exit_handled :: post) :
    post = [] ∧ (act_loop fuel s w).state.received_exit = true ∧
      (act_loop fuel s w).state.msg_ptr = none ∧
      ((act_loop fuel s w).stat = .exited ∨ (act_loop fuel s w).stat = .out_of_fuel) := by
  induction fuel generalizing s w pre with
  | zero => simp [act_loop] at h
  | succ n ih =>
    rw [act_loop_succ] at h ⊢
    rcases act_step_exit s w with hex | hno
    · rw [hex] at h ⊢
      simp only [if_true] at h ⊢
      cases n with
      | zero =>
        simp only [act_loop, List.append_nil] at h ⊢
        have hlen := congrArg List.length h
        simp at hlen
        have hp : post = [] := List.eq_nil_of_length_eq_zero (by omega)
        exact ⟨hp, by simp [act_loop]⟩
      | succ k =>
        rw [act_loop_stopped] at h ⊢
        simp only [List.append_nil] at h ⊢
        have hlen := congrArg List.length h
        simp at hlen
        have hp : post = [] := List.eq_nil_of_length_eq_zero (by omega)
        exact ⟨hp, by simp [act_loop]⟩
    · by_cases hst : (act_step s w).stat = .running
      · simp only [hst, if_true] at h ⊢
        rcases List.append_eq_append_iff.mp h with ⟨a, _, h2⟩ | ⟨b, h1, h2⟩
        · exact ih _ _ a h2
        · cases b with
          | nil =>
            simp only [List.nil_append] at h2
            exact ih _ _ [] (by simpa using h2.symm)
          | cons x xs =>
            simp only [List.cons_append, List.cons.injEq] at h2
            exfalso
            apply hno
            rw [h1, ← h2.1]
            simp
      · simp only [hst, if_false] at h
        exfalso
        apply hno
        rw [h]
        simp

/-- C6. Termination of the timer, for every run of `act`: the handling of an exit
signal is the last event of the trace (no drain, no delivery, no wait after it); the
run then stands at the false loop condition (it has exited, or the step budget ended
right there); and from the state reached, whatever entries the multimap still holds
and whatever the clock shows, any further budget yields no event at all and leaves
the multimap as it is: the loop has ended and the pending entries are never
delivered. -/
theorem timer_exit_ends_loop (fuel : Nat) (w : world) (pre post : List timer_event)
    (h : (act fuel w).trace = pre ++ timer_event.exit_handled :: post) :
    post = [] ∧
    ((act fuel w).stat = .exited ∨ (act fuel w).stat = .out_of_fuel) ∧
    ∀ n w1, act_loop (n + 1) (act fuel w).state w1 =
      ⟨(act fuel w).state, w1, [], .exited⟩ := by
  obtain ⟨h1, h2, h3, h4⟩ := act_loop_exit_last fuel timer_init w pre post h
  refine ⟨h1, h4, ?_⟩
  intro n w1
  have hs : (act fuel w).state = ⟨true, none, (act fuel w).state.messages⟩ := by
    unfold act
    rcases hst : (act_loop fuel timer_init w).state with ⟨a, b, c⟩
    rw [hst] at h2 h3
    simp only at h2 h3
    subst h2 h3
    rfl
  rw [hs]
  exact act_loop_stopped n _ w1

theorem timer_exit_ends_loop_witness :
    (act 10 sample.world_exit).trace =
      [.wait none, .received sample.elem_schedule,
        .inserted 1 100 ⟨4, 8, 13, .add ['c']⟩, .sampled 2, .wait (some 101),
        .received sample.elem_exit] ++ timer_event.exit_handled :: [] ∧
    (act 10 sample.world_exit).state.messages = [(101, ⟨4, 8, 13, .add ['c']⟩)] ∧
    (([] : List timer_event) = [] ∧
      ((act 10 sample.world_exit).stat = .exited ∨
        (act 10 sample.world_exit).stat = .out_of_fuel) ∧
      ∀ n w1, act_loop (n + 1) (act 10 sample.world_exit).state w1 =
        ⟨(act 10 sample.world_exit).state, w1, [], .exited⟩) :=
  ⟨by decide, by decide,
    timer_exit_ends_loop 10 sample.world_exit
      [.wait none, .received sample.elem_schedule,
        .inserted 1 100 ⟨4, 8, 13, .add ['c']⟩, .sampled 2, .wait (some 101),
        .received sample.elem_exit] [] (by decide)⟩

/-! ## Output multiplexer: the map -/

theorem out_find_assign_same (out : out_map) (s : actor_addr) (str line : string)
    (h : out_find out s = some line) : out_find (out_assign out s str) s = some str := by
  induction out with
  | nil => simp [out_find] at h
  | cons kv rest ih =>
    by_cases hk : kv.1 = s
    · simp [out_assign, out_find, hk]
    · simp only [out_find, hk, if_false] at h
      simp [out_assign, out_find, hk, ih h]

theorem out_find_assign_other (out : out_map) (s s1 : actor_addr) (str : string)
    (h : s1 ≠ s) : out_find (out_assign out s str) s1 = out_find out s1 := by
  induction out with
  | nil => rfl
  | cons kv rest ih =>
    by_cases hk : kv.1 = s
    · have hk1 : ¬ kv.1 = s1 := fun h1 => h (h1.symm.trans hk)
      simp only [out_assign, hk, if_true, out_find]
      rw [← hk, if_neg hk1, if_neg hk1, hk, ih]
    · by_cases hk1 : kv.1 = s1
      · simp only [out_assign, hk, if_false, out_find]
        simp only [if_pos hk1]
      · simp only [out_assign, hk, if_false, out_find, hk1, ih]

theorem out_find_insert_same (out : out_map) (s : actor_addr) (str : string)
    (h : out_find out s = none) : out_find (out_insert out s str) s = some str := by
  simp [out_insert, h, out_find]

theorem out_find_insert_other (out : out_map) (s s1 : actor_addr) (str : string)
    (h : s1 ≠ s) : out_find (out_insert out s str) s1 = out_find out s1 := by
  unfold out_insert
  cases out_find out s with
  | some _ => rfl
  | none => simp [out_find, Ne.symm h]

theorem out_find_erase_same (out : out_map) (s : actor_addr) :
    out_find (out_erase out s) s = none := by
  induction out with
  | nil => rfl
  | cons kv rest ih =>
    by_cases hk : kv.1 = s
    · simp only [out_erase, hk, if_true, ih]
    · simp only [out_erase, hk, if_false, out_find, ih]

theorem out_find_erase_other (out : out_map) (s s1 : actor_addr) (h : s1 ≠ s) :
    out_find (out_erase out s) s1 = out_find out s1 := by
  induction out with
  | nil => rfl
  | cons kv rest ih =>
    by_cases hk : kv.1 = s
    · have hk1 : ¬ kv.1 = s1 := fun h1 => h (h1.symm.trans hk)
      simp only [out_erase, hk, if_true, out_find]
      rw [← hk, if_neg hk1, hk, ih]
    · by_cases hk1 : kv.1 = s1
      · simp only [out_erase, hk, if_false, out_find]
        simp only [if_pos hk1]
      · simp only [out_erase, hk, if_false, out_find, hk1, ih]

theorem out_erase_no_key (out : out_map) (s : actor_addr) :
    ∀ kv ∈ out_erase out s, kv.1 ≠ s := by
  induction out with
  | nil => intro kv hkv; cases hkv
  | cons x rest ih =>
    intro kv hkv
    by_cases hk : x.1 = s
    · simp only [out_erase, hk, if_true] at hkv
      exact ih kv hkv
    · simp only [out_erase, hk, if_false] at hkv
      rcases List.mem_cons.mp hkv with h1 | h1
      · subst h1; exact hk
      · exact ih kv h1

theorem flush_if_needed_eq (str : string) (h : str ≠ []) :
    flush_if_needed str = some (if ends_line str = true then ([str], []) else ([], str)) := by
  unfold flush_if_needed ends_line
  cases hl : str.getLast? with
  | none => exact absurd (List.getLast?_eq_none_iff.mp hl) h
  | some c =>
    by_cases hc : c = '\n'
    · simp [hc]
    · simp [hc]

theorem ends_line_append (line str : string) (h : str ≠ []) :
    ends_line (line ++ str) = ends_line str := by
  unfold ends_line
  rw [List.getLast?_append]
  cases hl : str.getLast? with
  | none => exact absurd (List.getLast?_eq_none_iff.mp hl) h
  | some c => rfl

theorem ends_line_mem (str : string) (h : ends_line str = true) : '\n' ∈ str := by
  unfold ends_line at h
  exact List.mem_of_getLast?_eq_some (by simpa using h)

/-! ## Output multiplexer: appending -/

theorem printer_handle_add (st : printer_state) (e : mailbox_element) (str : string)
    (hmsg : e.msg = .add str) (hstr : str ≠ []) (hs : e.sender ≠ invalid_actor_addr) :
    ∃ out1, printer_handle st e =
        some (⟨st.running, out1⟩,
          (if out_find st.out e.sender = none then [printer_event.monitor e.sender] else [])
            ++ (if ends_line (buffer_after_append st.out e.sender str) = true then
              [printer_event.cout e.sender (buffer_after_append st.out e.sender str)]
              else [])) ∧
      out_find out1 e.sender =
        some (if ends_line (buffer_after_append st.out e.sender str) = true then []
          else buffer_after_append st.out e.sender str) ∧
      ∀ s1, s1 ≠ e.sender → out_find out1 s1 = out_find st.out s1 := by
  cases hf : out_find st.out e.sender with
  | none =>
    have hb : buffer_after_append st.out e.sender str = str := by
      simp [buffer_after_append, hf]
    rw [hb]
    refine ⟨out_assign (out_insert st.out e.sender str) e.sender
      (if ends_line str = true then [] else str), ?_, ?_, ?_⟩
    · simp only [printer_handle, hmsg, hstr, hs, hf, flush_if_needed_eq str hstr, false_or,
        if_false]
      by_cases he : ends_line str = true <;> simp [he]
    · exact out_find_assign_same _ _ _ str (out_find_insert_same _ _ _ hf)
    · intro s1 h1
      rw [out_find_assign_other _ _ _ _ h1, out_find_insert_other _ _ _ _ h1]
  | some line =>
    have hb : buffer_after_append st.out e.sender str = line ++ str := by
      simp [buffer_after_append, hf]
    have hne : line ++ str ≠ [] := by simp [hstr]
    rw [hb]
    refine ⟨out_assign st.out e.sender
      (if ends_line (line ++ str) = true then [] else line ++ str), ?_, ?_, ?_⟩
    · simp only [printer_handle, hmsg, hstr, hs, hf, flush_if_needed_eq _ hne, false_or,
        if_false]
      by_cases he : ends_line (line ++ str) = true <;> simp [he]
    · exact out_find_assign_same _ _ _ line hf
    · intro s1 h1
      rw [out_find_assign_other _ _ _ _ h1]

/-- C7. Flush on a line boundary: for an append of a non-empty fragment `str` by a
valid sender the handler returns, and with `buf` the text of the sender's entry
after the append: `std::cout` is written if and only if `buf` ends with a line
terminator; then there is exactly one write, its text is all of `buf`, and the
entry stays in the map with the empty text; otherwise nothing is written and the
entry holds `buf`; a fragment without any line terminator causes no write. -/
theorem output_append_line_flush (st : printer_state) (e : mailbox_element) (str : string)
    (hmsg : e.msg = .add str) (hstr : str ≠ []) (hs : e.sender ≠ invalid_actor_addr) :
    ∃ st1 ev, printer_handle st e = some (st1, ev) ∧
      (couts ev ≠ [] ↔ ends_line (buffer_after_append st.out e.sender str) = true) ∧
      (ends_line (buffer_after_append st.out e.sender str) = true →
        couts ev = [buffer_after_append st.out e.sender str] ∧
        out_find st1.out e.sender = some []) ∧
      (ends_line (buffer_after_append st.out e.sender str) = false →
        couts ev = [] ∧
        out_find st1.out e.sender = some (buffer_after_append st.out e.sender str)) ∧
      ('\n' ∉ str → couts ev = []) := by
  obtain ⟨out1, h1, h2, _⟩ := printer_handle_add st e str hmsg hstr hs
  refine ⟨_, _, h1, ?_⟩
  have hmon : ∀ l : List printer_event,
      couts ((if out_find st.out e.sender = none then [printer_event.monitor e.sender]
        else []) ++ l) = couts l := by
    intro l
    by_cases hf : out_find st.out e.sender = none <;> simp [hf, couts]
  rw [hmon]
  have hnl : '\n' ∉ str → ends_line (buffer_after_append st.out e.sender str) = false := by
    intro hn
    have hstr_end : ends_line str = false := by
      cases hx : ends_line str with
      | false => rfl
      | true => exact absurd (ends_line_mem str hx) hn
    unfold buffer_after_append
    cases out_find st.out e.sender with
    | none => exact hstr_end
    | some line => simp only []; rw [ends_line_append line str hstr]; exact hstr_end
  cases he : ends_line (buffer_after_append st.out e.sender str) with
  | true =>
    rw [he] at h2
    refine ⟨by simp [couts], fun _ => ⟨by simp [couts], by simpa using h2⟩, by simp, ?_⟩
    intro hn
    rw [hnl hn] at he
    cases he
  | false =>
    rw [he] at h2
    refine ⟨by simp [couts], by simp, fun _ => ⟨by simp [couts], by simpa using h2⟩, ?_⟩
    intro _
    simp [couts]

theorem output_append_line_flush_witness :
    printer_handle sample.two_buffers sample.elem_add_bar =
      some (⟨true, [(1, []), (2, ['x'])]⟩,
        [.cout 1 ['f', 'o', 'o', 'b', 'a', 'r', '\n']]) ∧
    ∃ st1 ev, printer_handle sample.two_buffers sample.elem_add_bar = some (st1, ev) ∧
      (couts ev ≠ [] ↔ ends_line (buffer_after_append sample.two_buffers.out
        sample.elem_add_bar.sender ['b', 'a', 'r', '\n']) = true) ∧
      (ends_line (buffer_after_append sample.two_buffers.out
          sample.elem_add_bar.sender ['b', 'a', 'r', '\n']) = true →
        couts ev = [buffer_after_append sample.two_buffers.out
          sample.elem_add_bar.sender ['b', 'a', 'r', '\n']] ∧
        out_find st1.out sample.elem_add_bar.sender = some []) ∧
      (ends_line (buffer_after_append sample.two_buffers.out
          sample.elem_add_bar.sender ['b', 'a', 'r', '\n']) = false →
        couts ev = [] ∧
        out_find st1.out sample.elem_add_bar.sender =
          some (buffer_after_append sample.two_buffers.out
            sample.elem_add_bar.sender ['b', 'a', 'r', '\n'])) ∧
      ('\n' ∉ ['b', 'a', 'r', '\n'] → couts ev = []) :=
  ⟨by decide,
    output_append_line_flush sample.two_buffers sample.elem_add_bar
      ['b', 'a', 'r', '\n'] rfl (by decide) (by decide)⟩

/-! ## Output multiplexer: termination of a sender -/

theorem flush_output_find_other (out : out_map) (s s1 : actor_addr) (h : s1 ≠ s) :
    out_find (flush_output out s).2 s1 = out_find out s1 := by
  unfold flush_output
  cases out_find out s with
  | none => rfl
  | some line =>
    by_cases hl : line = []
    · simp [hl]
    · simp only [ne_eq, hl, not_false_eq_true, if_true]
      exact out_find_assign_other _ _ _ _ h

/-- C9. Termination notification for sender `source`: the handler returns; it writes
the text of the entry of `source` to `std::cout`, once, exactly when there is an
entry and its text is non-empty, and writes nothing otherwise; afterwards the map
has no entry for `source`; the entry of every other sender is as before. -/
theorem output_down_notification (st : printer_state) (e : mailbox_element)
    (source : actor_addr) (reason : Nat) (hmsg : e.msg = .down_msg source reason) :
    ∃ out1, printer_handle st e =
        some (⟨st.running, out1⟩,
          match out_find st.out source with
          | some line => if line ≠ [] then [printer_event.cout source line] else []
          | none => []) ∧
      out_find out1 source = none ∧ (∀ kv ∈ out1, kv.1 ≠ source) ∧
      ∀ s1, s1 ≠ source → out_find out1 s1 = out_find st.out s1 := by
  refine ⟨out_erase (flush_output st.out source).2 source, ?_, out_find_erase_same _ _,
    out_erase_no_key _ _, ?_⟩
  · simp only [printer_handle, hmsg]
    congr 2
    unfold flush_output
    cases out_find st.out source with
    | none => rfl
    | some line =>
      by_cases hl : line = []
      · simp [hl]
      · simp [hl]
  · intro s1 h1
    rw [out_find_erase_other _ _ _ h1, flush_output_find_other _ _ _ h1]

theorem output_down_notification_witness :
    printer_handle sample.one_partial sample.elem_down_1 =
      some (⟨true, []⟩, [.cout 1 ['x']]) ∧
    ∃ out1, printer_handle sample.one_partial sample.elem_down_1 =
        some (⟨sample.one_partial.running, out1⟩,
          match out_find sample.one_partial.out 1 with
          | some line => if line ≠ [] then [printer_event.cout 1 line] else []
          | none => []) ∧
      out_find out1 1 = none ∧ (∀ kv ∈ out1, kv.1 ≠ 1) ∧
      ∀ s1, s1 ≠ 1 → out_find out1 s1 = out_find sample.one_partial.out s1 :=
  ⟨by decide, output_down_notification sample.one_partial sample.elem_down_1 1 0 rfl⟩

/-- C8, as stated, fails: after the termination notification of sender 1 has been
handled (its text "x" is written, its entry erased), an append attributed to
sender 1 is not ignored: it creates an entry for sender 1, monitors it and writes
to `std::cout`. -/
theorem output_append_after_down_counterexample :
    printer_handle sample.one_partial sample.elem_down_1 =
      some (⟨true, []⟩, [.cout 1 ['x']]) ∧
    printer_handle ⟨true, []⟩ sample.elem_add_y =
      some (⟨true, [(1, [])]⟩, [.monitor 1, .cout 1 ['y', '\n']]) ∧
    printer_handle ⟨true, []⟩ sample.elem_add_y ≠ some (⟨true, []⟩, []) := by
  decide

/-- C8, amended. After the termination notification of sender `s` has been handled
the map has no entry for `s`; a later append of a non-empty fragment attributed to
`s` (a valid address) is handled like the first append of a new sender: `s` is
monitored, an entry for `s` is made, the fragment is written to `std::cout` and the
entry emptied exactly when the fragment ends with a line terminator, otherwise the
entry holds the fragment; no other sender's entry changes. -/
theorem output_append_after_down (st : printer_state) (e0 e1 : mailbox_element)
    (s : actor_addr) (reason : Nat) (str : string)
    (h0 : e0.msg = .down_msg s reason) (h1 : e1.msg = .add str) (hsender : e1.sender = s)
    (hstr : str ≠ []) (hs : s ≠ invalid_actor_addr) :
    ∃ st1 ev1, printer_handle st e0 = some (st1, ev1) ∧ out_find st1.out s = none ∧
      ∃ out2, printer_handle st1 e1 =
          some (⟨st1.running, out2⟩,
            printer_event.monitor s ::
              (if ends_line str = true then [printer_event.cout s str] else [])) ∧
        out_find out2 s = some (if ends_line str = true then [] else str) ∧
        ∀ s1, s1 ≠ s → out_find out2 s1 = out_find st1.out s1 := by
  have hd1 : printer_handle st e0 =
      some (⟨st.running, out_erase (flush_output st.out s).2 s⟩,
        (flush_output st.out s).1.map (printer_event.cout s)) := by
    simp only [printer_handle, h0]
  have hd2 : out_find (out_erase (flush_output st.out s).2 s) s = none :=
    out_find_erase_same _ _
  refine ⟨_, _, hd1, hd2, ?_⟩
  subst hsender
  obtain ⟨out2, ha1, ha2, ha3⟩ :=
    printer_handle_add ⟨st.running, out_erase (flush_output st.out e1.sender).2 e1.sender⟩
      e1 str h1 hstr hs
  have hb : buffer_after_append (out_erase (flush_output st.out e1.sender).2 e1.sender)
      e1.sender str = str := by
    simp [buffer_after_append, hd2]
  simp only [hd2, hb, if_true, List.singleton_append] at ha1 ha2
  exact ⟨out2, ha1, ha2, ha3⟩

theorem output_append_after_down_witness :
    ∃ st1 ev1, printer_handle sample.one_partial sample.elem_down_1 = some (st1, ev1) ∧
      out_find st1.out 1 = none ∧
      ∃ out2, printer_handle st1 sample.elem_add_y =
          some (⟨st1.running, out2⟩,
            printer_event.monitor 1 ::
              (if ends_line ['y', '\n'] = true then [printer_event.cout 1 ['y', '\n']]
                else [])) ∧
        out_find out2 1 = some (if ends_line ['y', '\n'] = true then [] else ['y', '\n']) ∧
        ∀ s1, s1 ≠ 1 → out_find out2 s1 = out_find st1.out s1 :=
  output_append_after_down sample.one_partial sample.elem_down_1 sample.elem_add_y 1 0
    ['y', '\n'] rfl rfl rfl (by decide) (by decide)

/-! ## Output multiplexer: lines of the output -/

theorem split_lines_mem (xs cur : List (actor_addr × Char)) :
    ∀ line ∈ split_lines cur xs, ∀ a ∈ line, a ∈ cur ∨ a ∈ xs := by
  induction xs generalizing cur with
  | nil =>
    intro line hl a ha
    by_cases hc : cur = []
    · simp [split_lines, hc] at hl
    · simp only [split_lines, hc, if_false, List.mem_singleton] at hl
      subst hl
      exact Or.inl ha
  | cons x xs ih =>
    intro line hl a ha
    by_cases hx : x.2 = '\n'
    · simp only [split_lines, hx, if_true] at hl
      rcases List.mem_cons.mp hl with h | h
      · subst h
        rcases List.mem_append.mp ha with h1 | h1
        · exact Or.inl h1
        · right
          rw [List.mem_singleton.mp h1]
          exact List.mem_cons_self _ _
      · rcases ih [] line h a ha with h1 | h1
        · cases h1
        · exact Or.inr (List.mem_cons_of_mem _ h1)
    · simp only [split_lines, hx, if_false] at hl
      rcases ih (cur ++ [x]) line hl a ha with h1 | h1
      · rcases List.mem_append.mp h1 with h2 | h2
        · exact Or.inl h2
        · right
          rw [List.mem_singleton.mp h2]
          exact List.mem_cons_self _ _
      · exact Or.inr (List.mem_cons_of_mem _ h1)

theorem split_lines_block (block rest cur : List (actor_addr × Char))
    (hend : ∃ front s, block = front ++ [(s, '\n')]) :
    split_lines cur (block ++ rest) = split_lines cur block ++ split_lines [] rest := by
  obtain ⟨front, s, hb⟩ := hend
  subst hb
  induction front generalizing cur with
  | nil => simp [split_lines]
  | cons x xs ih =>
    by_cases hx : x.2 = '\n'
    · simp only [List.cons_append, split_lines, hx, if_true, List.append_eq]
      rw [ih []]
    · simp only [List.cons_append, split_lines, hx, if_false, List.append_eq]
      rw [ih (cur ++ [x])]

theorem sink_lines_terminated (tr : List printer_event)
    (hall : ∀ text ∈ couts tr, ends_line text = true) :
    ∀ line ∈ sink_lines tr, single_sender line := by
  induction tr with
  | nil => intro line hl; simp [sink_lines, sink_chars, split_lines] at hl
  | cons ev tr ih =>
    cases ev with
    | cout s text =>
      have h1 : ends_line text = true := hall text (by simp [couts])
      have h2 : ∀ t ∈ couts tr, ends_line t = true := by
        intro t ht
        exact hall t (by simp only [couts, List.filterMap_cons] at ht ⊢; exact
          List.mem_cons_of_mem _ ht)
      have hend : ∃ front s1, text.map (fun c => (s, c)) = front ++ [(s1, '\n')] := by
        unfold ends_line at h1
        obtain ⟨ys, hys⟩ := List.getLast?_eq_some_iff.mp (by simpa using h1)
        exact ⟨ys.map (fun c => (s, c)), s, by rw [hys]; simp⟩
      intro line hl
      simp only [sink_lines, sink_chars] at hl
      rw [split_lines_block _ _ _ hend] at hl
      rcases List.mem_append.mp hl with h | h
      · intro a ha b hb
        have owner : ∀ x ∈ line, x.1 = s := by
          intro x hx
          rcases split_lines_mem _ _ line h x hx with h3 | h3
          · cases h3
          · obtain ⟨c, _, hc⟩ := List.mem_map.mp h3
            rw [← hc]
        rw [owner a ha, owner b hb]
      · exact ih h2 line h
    | monitor s =>
      have h2 : ∀ t ∈ couts tr, ends_line t = true := by
        intro t ht
        exact hall t (by simpa [couts] using ht)
      intro line hl
      exact ih h2 line (by simpa [sink_lines, sink_chars] using hl)
    | cerr m =>
      have h2 : ∀ t ∈ couts tr, ends_line t = true := by
        intro t ht
        exact hall t (by simpa [couts] using ht)
      intro line hl
      exact ih h2 line (by simpa [sink_lines, sink_chars] using hl)

theorem printer_handle_idle (st st1 : printer_state) (e : mailbox_element)
    (ev : List printer_event) (h : printer_handle st e = some (st1, ev))
    (hidle : idle_flush st e = true) : ∀ text ∈ couts ev, ends_line text = true := by
  cases hmsg : e.msg with
  | add str =>
    by_cases hskip : str = [] ∨ e.sender = invalid_actor_addr
    · simp only [printer_handle, hmsg, hskip, if_true, Option.some.injEq, Prod.mk.injEq] at h
      rw [← h.2]
      intro text ht
      simp [couts] at ht
    · have hstr : str ≠ [] := fun hx => hskip (Or.inl hx)
      have hs : e.sender ≠ invalid_actor_addr := fun hx => hskip (Or.inr hx)
      obtain ⟨out1, h1, _, _⟩ := printer_handle_add st e str hmsg hstr hs
      rw [h1] at h
      simp only [Option.some.injEq, Prod.mk.injEq] at h
      rw [← h.2]
      intro text ht
      by_cases hf : out_find st.out e.sender = none <;>
        by_cases he : ends_line (buffer_after_append st.out e.sender str) = true <;>
          simp [hf, he, couts] at ht
      · rw [ht]; exact he
      · rw [ht]; exact he
  | flush =>
    simp only [idle_flush, hmsg, decide_eq_true_eq] at hidle
    simp only [printer_handle, hmsg, hidle, Option.some.injEq, Prod.mk.injEq] at h
    rw [← h.2]
    intro text ht
    simp [couts] at ht
  | down_msg source reason =>
    simp only [idle_flush, hmsg, decide_eq_true_eq] at hidle
    simp only [printer_handle, hmsg, hidle, Option.some.injEq, Prod.mk.injEq] at h
    rw [← h.2]
    intro text ht
    simp [couts] at ht
  | exit_msg a b =>
    simp only [printer_handle, hmsg, Option.some.injEq, Prod.mk.injEq] at h
    rw [← h.2]
    intro text ht
    simp [couts] at ht
  | delayed d f t m p =>
    simp only [printer_handle, hmsg, Option.some.injEq, Prod.mk.injEq] at h
    rw [← h.2]
    intro text ht
    simp [couts] at ht
  | other n =>
    simp only [printer_handle, hmsg, Option.some.injEq, Prod.mk.injEq] at h
    rw [← h.2]
    intro text ht
    simp [couts] at ht

theorem printer_loop_idle (mailbox : List mailbox_element) (st st2 : printer_state)
    (tr : List printer_event) (hrun : printer_loop st mailbox = some (st2, tr))
    (hidle : idle_flushes st mailbox = true) :
    ∀ text ∈ couts tr, ends_line text = true := by
  induction mailbox generalizing st tr with
  | nil =>
    simp only [printer_loop, Option.some.injEq, Prod.mk.injEq] at hrun
    rw [← hrun.2]
    intro text ht
    simp [couts] at ht
  | cons e rest ih =>
    cases hr : st.running with
    | false =>
      simp only [printer_loop, hr, Bool.false_eq_true, if_false, Option.some.injEq,
        Prod.mk.injEq] at hrun
      rw [← hrun.2]
      intro text ht
      simp [couts] at ht
    | true =>
      simp only [printer_loop, hr, if_true] at hrun
      simp only [idle_flushes, hr, if_true, Bool.and_eq_true] at hidle
      cases hh : printer_handle st e with
      | none => simp [hh] at hrun
      | some res =>
        obtain ⟨st1, ev⟩ := res
        simp only [hh] at hrun hidle
        cases hl : printer_loop st1 rest with
        | none => simp [hl] at hrun
        | some res2 =>
          obtain ⟨st3, tr1⟩ := res2
          simp only [hl, Option.some.injEq, Prod.mk.injEq] at hrun
          rw [← hrun.2]
          rw [hrun.1] at hl
          intro text ht
          have hsplit : text ∈ couts ev ∨ text ∈ couts tr1 := by
            simpa [couts, List.filterMap_append] using ht
          rcases hsplit with h1 | h1
          · exact printer_handle_idle st st1 e ev hh hidle.1 text h1
          · exact ih st1 tr1 hl hidle.2 text h1

/-! ## Output multiplexer: explicit flush -/

theorem out_assign_keys (out : out_map) (s : actor_addr) (str : string) :
    out_keys (out_assign out s str) = out_keys out := by
  induction out with
  | nil => rfl
  | cons kv rest ih =>
    simp only [out_keys] at ih
    by_cases hk : kv.1 = s
    · simp only [out_assign, hk, if_true, out_keys, List.map_cons, ih]
    · simp only [out_assign, hk, if_false, out_keys, List.map_cons, ih]

theorem out_assign_assign (out : out_map) (s : actor_addr) (a b : string) :
    out_assign (out_assign out s a) s b = out_assign out s b := by
  induction out with
  | nil => rfl
  | cons kv rest ih =>
    by_cases hk : kv.1 = s
    · simp only [out_assign, hk, if_true, ih]
    · simp only [out_assign, hk, if_false, ih]

/-- C12. Explicit flush by sender `s`: the handler returns; when `s` has an entry
with a non-empty text, that text is written to `std::cout` once and the entry is
kept with the empty text; when `s` has no entry or an empty one, nothing is written
and the map is not changed at all; in both cases the senders that have an entry are
the same as before and the text of every other sender is unchanged. -/
theorem output_explicit_flush (st : printer_state) (e : mailbox_element)
    (hmsg : e.msg = .flush) :
    ∃ out1 ev, printer_handle st e = some (⟨st.running, out1⟩, ev) ∧
      (∀ line, out_find st.out e.sender = some line → line ≠ [] →
        ev = [printer_event.cout e.sender line] ∧ out_find out1 e.sender = some []) ∧
      ((out_find st.out e.sender = none ∨ out_find st.out e.sender = some []) →
        ev = [] ∧ out1 = st.out) ∧
      out_keys out1 = out_keys st.out ∧
      ∀ s1, s1 ≠ e.sender → out_find out1 s1 = out_find st.out s1 := by
  refine ⟨(flush_output st.out e.sender).2,
    (flush_output st.out e.sender).1.map (printer_event.cout e.sender), ?_, ?_, ?_, ?_, ?_⟩
  · simp only [printer_handle, hmsg]
  · intro line hf hl
    simp only [flush_output, hf, ne_eq, hl, not_false_eq_true, if_true, List.map_cons,
      List.map_nil, true_and]
    exact out_find_assign_same _ _ _ line hf
  · intro h
    rcases h with h | h
    · simp [flush_output, h]
    · simp [flush_output, h]
  · unfold flush_output
    cases out_find st.out e.sender with
    | none => rfl
    | some line =>
      by_cases hl : line = []
      · simp [hl]
      · simp only [ne_eq, hl, not_false_eq_true, if_true]
        exact out_assign_keys _ _ _
  · intro s1 h1
    exact flush_output_find_other _ _ _ h1

theorem output_explicit_flush_witness :
    printer_handle sample.two_buffers sample.elem_flush_2 =
      some (⟨true, [(1, ['f', 'o', 'o']), (2, [])]⟩, [.cout 2 ['x']]) ∧
    ∃ out1 ev, printer_handle sample.two_buffers sample.elem_flush_2 =
        some (⟨sample.two_buffers.running, out1⟩, ev) ∧
      (∀ line, out_find sample.two_buffers.out sample.elem_flush_2.sender = some line →
        line ≠ [] →
        ev = [printer_event.cout sample.elem_flush_2.sender line] ∧
        out_find out1 sample.elem_flush_2.sender = some []) ∧
      ((out_find sample.two_buffers.out sample.elem_flush_2.sender = none ∨
          out_find sample.two_buffers.out sample.elem_flush_2.sender = some []) →
        ev = [] ∧ out1 = sample.two_buffers.out) ∧
      out_keys out1 = out_keys sample.two_buffers.out ∧
      ∀ s1, s1 ≠ sample.elem_flush_2.sender →
        out_find out1 s1 = out_find sample.two_buffers.out s1 :=
  ⟨by decide, output_explicit_flush sample.two_buffers sample.elem_flush_2 rfl⟩

/-! ## Output multiplexer: bookkeeping of an append -/

theorem printer_handle_add_steps (st : printer_state) (e : mailbox_element) (str : string)
    (hmsg : e.msg = .add str) (hstr : str ≠ []) (hs : e.sender ≠ invalid_actor_addr) :
    printer_handle st e =
      flush_added st.running e.sender (add_to_buffer st.out e.sender str) := by
  simp only [printer_handle, hmsg, hstr, hs, false_or, if_false, add_to_buffer, flush_added]
  cases hf : out_find st.out e.sender with
  | none =>
    simp only []
    cases flush_if_needed str with
    | none => rfl
    | some r => rfl
  | some line =>
    simp only []
    cases flush_if_needed (line ++ str) with
    | none => rfl
    | some r => simp [out_assign_assign]

/-- C13. Bookkeeping of an append of the non-empty fragment `str` by the valid sender
`s` (lines 166-173, before `flush_if_needed` looks at the text): without an entry
for `s`, one is made that holds `str`, and `s` is monitored, once; with an entry,
empty or not, `str` is put behind its text and no call of `monitor` is made; the
entry of no other sender changes. The handler returns, and the calls of `monitor`
in its trace are those of the bookkeeping. -/
theorem output_append_bookkeeping (st : printer_state) (e : mailbox_element) (str : string)
    (hmsg : e.msg = .add str) (hstr : str ≠ []) (hs : e.sender ≠ invalid_actor_addr) :
    (out_find st.out e.sender = none →
      (add_to_buffer st.out e.sender str).2.1 = [printer_event.monitor e.sender] ∧
      out_find (add_to_buffer st.out e.sender str).1 e.sender = some str) ∧
    (∀ line, out_find st.out e.sender = some line →
      (add_to_buffer st.out e.sender str).2.1 = [] ∧
      out_find (add_to_buffer st.out e.sender str).1 e.sender = some (line ++ str)) ∧
    (∀ s1, s1 ≠ e.sender →
      out_find (add_to_buffer st.out e.sender str).1 s1 = out_find st.out s1) ∧
    ∃ st1 ev, printer_handle st e = some (st1, ev) ∧
      monitors ev = monitors (add_to_buffer st.out e.sender str).2.1 ∧
      monitors ev = (if out_find st.out e.sender = none then [e.sender] else []) ∧
      ∀ s1, s1 ≠ e.sender → out_find st1.out s1 = out_find st.out s1 := by
  refine ⟨?_, ?_, ?_, ?_⟩
  · intro hf
    simp only [add_to_buffer, hf, true_and]
    exact out_find_insert_same _ _ _ hf
  · intro line hf
    simp only [add_to_buffer, hf, true_and]
    exact out_find_assign_same _ _ _ line hf
  · intro s1 h1
    unfold add_to_buffer
    cases out_find st.out e.sender with
    | none => exact out_find_insert_other _ _ _ _ h1
    | some line => exact out_find_assign_other _ _ _ _ h1
  · obtain ⟨out1, h1, _, h3⟩ := printer_handle_add st e str hmsg hstr hs
    refine ⟨_, _, h1, ?_, ?_, h3⟩
    · unfold add_to_buffer
      cases out_find st.out e.sender with
      | none =>
        by_cases he : ends_line (buffer_after_append st.out e.sender str) = true <;>
          simp [monitors, he]
      | some line =>
        by_cases he : ends_line (buffer_after_append st.out e.sender str) = true <;>
          simp [monitors, he]
    · cases out_find st.out e.sender with
      | none =>
        by_cases he : ends_line (buffer_after_append st.out e.sender str) = true <;>
          simp [monitors, he]
      | some line =>
        by_cases he : ends_line (buffer_after_append st.out e.sender str) = true <;>
          simp [monitors, he]

theorem output_append_bookkeeping_witness :
    add_to_buffer sample.two_buffers.out 3 ['h', 'i'] =
      ([(3, ['h', 'i']), (1, ['f', 'o', 'o']), (2, ['x'])], [.monitor 3], ['h', 'i']) ∧
    add_to_buffer sample.two_buffers.out 1 ['b', 'a', 'r', '\n'] =
      ([(1, ['f', 'o', 'o', 'b', 'a', 'r', '\n']), (2, ['x'])], [],
        ['f', 'o', 'o', 'b', 'a', 'r', '\n']) ∧
    (∃ st1 ev, printer_handle sample.two_buffers sample.elem_add_hi = some (st1, ev) ∧
      monitors ev = monitors (add_to_buffer sample.two_buffers.out
        sample.elem_add_hi.sender ['h', 'i']).2.1 ∧
      monitors ev = (if out_find sample.two_buffers.out sample.elem_add_hi.sender = none
        then [sample.elem_add_hi.sender] else []) ∧
      ∀ s1, s1 ≠ sample.elem_add_hi.sender →
        out_find st1.out s1 = out_find sample.two_buffers.out s1) :=
  ⟨by decide, by decide,
    (output_append_bookkeeping sample.two_buffers sample.elem_add_hi ['h', 'i'] rfl
      (by decide) (by decide)).2.2.2⟩

/-- C14. Rejected append: an append whose fragment is empty, or whose sender is the
invalid address, is ignored: the handler returns the state as it was (the same map,
the loop still running as before) with an empty trace, so no sender is monitored and
nothing is written. -/
theorem output_append_rejected (st : printer_state) (e : mailbox_element) (str : string)
    (hmsg : e.msg = .add str) (hrej : str = [] ∨ e.sender = invalid_actor_addr) :
    printer_handle st e = some (st, []) := by
  simp only [printer_handle, hmsg, hrej, if_true]

theorem output_append_rejected_witness :
    printer_handle sample.two_buffers sample.elem_add_empty =
      some (sample.two_buffers, []) ∧
    printer_handle sample.two_buffers sample.elem_add_invalid =
      some (sample.two_buffers, []) :=
  ⟨output_append_rejected sample.two_buffers sample.elem_add_empty [] rfl (Or.inl rfl),
    output_append_rejected sample.two_buffers sample.elem_add_invalid ['z'] rfl
      (Or.inr rfl)⟩

/-! ## Output multiplexer: the handlers always return -/

theorem printer_handle_total (st : printer_state) (e : mailbox_element) :
    ∃ st1 ev, printer_handle st e = some (st1, ev) := by
  cases hmsg : e.msg with
  | add str =>
    by_cases hrej : str = [] ∨ e.sender = invalid_actor_addr
    · exact ⟨st, [], by simp only [printer_handle, hmsg, hrej, if_true]⟩
    · obtain ⟨out1, h1, _, _⟩ := printer_handle_add st e str hmsg
        (fun hx => hrej (Or.inl hx)) (fun hx => hrej (Or.inr hx))
      exact ⟨_, _, h1⟩
  | flush => exact ⟨_, _, by simp only [printer_handle, hmsg]; rfl⟩
  | down_msg source reason => exact ⟨_, _, by simp only [printer_handle, hmsg]; rfl⟩
  | exit_msg a b => exact ⟨_, _, by simp only [printer_handle, hmsg]; rfl⟩
  | delayed d f t m p => exact ⟨_, _, by simp only [printer_handle, hmsg]; rfl⟩
  | other n => exact ⟨_, _, by simp only [printer_handle, hmsg]; rfl⟩

theorem printer_loop_total (mailbox : List mailbox_element) (st : printer_state) :
    ∃ st2 tr, printer_loop st mailbox = some (st2, tr) := by
  induction mailbox generalizing st with
  | nil => exact ⟨st, [], rfl⟩
  | cons e rest ih =>
    cases hr : st.running with
    | false => exact ⟨st, [], by simp [printer_loop, hr]⟩
    | true =>
      obtain ⟨st1, ev, h1⟩ := printer_handle_total st e
      obtain ⟨st2, tr, h2⟩ := ih st1
      exact ⟨st2, ev ++ tr, by simp [printer_loop, hr, h1, h2]⟩

theorem printer_loop_cons (st st1 : printer_state) (e : mailbox_element)
    (rest : List mailbox_element) (ev : List printer_event)
    (hr : st.running = true) (h1 : printer_handle st e = some (st1, ev)) :
    ∃ st2 tr, printer_loop st1 rest = some (st2, tr) ∧
      printer_loop st (e :: rest) = some (st2, ev ++ tr) := by
  obtain ⟨st2, tr, h2⟩ := printer_loop_total rest st1
  exact ⟨st2, tr, h2, by simp [printer_loop, hr, h1, h2]⟩

/-! ## Output multiplexer: no stored text ends a line -/

theorem mem_out_assign (out : out_map) (s : actor_addr) (v : string)
    (kv : actor_addr × string) (h : kv ∈ out_assign out s v) : kv.2 = v ∨ kv ∈ out := by
  induction out with
  | nil => simp [out_assign] at h
  | cons x rest ih =>
    by_cases hk : x.1 = s
    · simp only [out_assign, hk, if_true] at h
      rcases List.mem_cons.mp h with h1 | h1
      · left; rw [h1]
      · rcases ih h1 with h2 | h2
        · exact Or.inl h2
        · exact Or.inr (List.mem_cons_of_mem _ h2)
    · simp only [out_assign, hk, if_false] at h
      rcases List.mem_cons.mp h with h1 | h1
      · right; rw [h1]; exact List.mem_cons_self _ _
      · rcases ih h1 with h2 | h2
        · exact Or.inl h2
        · exact Or.inr (List.mem_cons_of_mem _ h2)

theorem mem_out_assign_insert (out : out_map) (s : actor_addr) (str v : string)
    (kv : actor_addr × string) (h : kv ∈ out_assign (out_insert out s str) s v) :
    kv.2 = v ∨ kv ∈ out := by
  unfold out_insert at h
  cases hf : out_find out s with
  | some line =>
    rw [hf] at h
    exact mem_out_assign _ _ _ _ h
  | none =>
    rw [hf] at h
    simp only [out_assign, if_true] at h
    rcases List.mem_cons.mp h with h1 | h1
    · left; rw [h1]
    · exact mem_out_assign _ _ _ _ h1

theorem mem_out_erase (out : out_map) (s : actor_addr) (kv : actor_addr × string)
    (h : kv ∈ out_erase out s) : kv ∈ out := by
  induction out with
  | nil => simp [out_erase] at h
  | cons x rest ih =>
    by_cases hk : x.1 = s
    · simp only [out_erase, hk, if_true] at h
      exact List.mem_cons_of_mem _ (ih h)
    · simp only [out_erase, hk, if_false] at h
      rcases List.mem_cons.mp h with h1 | h1
      · rw [h1]; exact List.mem_cons_self _ _
      · exact List.mem_cons_of_mem _ (ih h1)

theorem mem_flush_output (out : out_map) (s : actor_addr) (kv : actor_addr × string)
    (h : kv ∈ (flush_output out s).2) : kv.2 = [] ∨ kv ∈ out := by
  unfold flush_output at h
  cases hf : out_find out s with
  | none => rw [hf] at h; exact Or.inr h
  | some line =>
    rw [hf] at h
    by_cases hl : line = []
    · simp only [hl, ne_eq, not_true_eq_false, if_false] at h
      exact Or.inr h
    · simp only [ne_eq, hl, not_false_eq_true, if_true] at h
      exact mem_out_assign _ _ _ _ h

theorem printer_handle_tidy (st st1 : printer_state) (e : mailbox_element)
    (ev : List printer_event) (h : printer_handle st e = some (st1, ev))
    (htidy : ∀ kv ∈ st.out, ends_line kv.2 = false) :
    ∀ kv ∈ st1.out, ends_line kv.2 = false := by
  cases hmsg : e.msg with
  | add str =>
    by_cases hrej : str = [] ∨ e.sender = invalid_actor_addr
    · simp only [printer_handle, hmsg, hrej, if_true, Option.some.injEq, Prod.mk.injEq] at h
      rw [← h.1]; exact htidy
    · have hstr : str ≠ [] := fun hx => hrej (Or.inl hx)
      have hs : e.sender ≠ invalid_actor_addr := fun hx => hrej (Or.inr hx)
      simp only [printer_handle, hmsg, hrej, if_false] at h
      cases hf : out_find st.out e.sender with
      | none =>
        simp only [hf, flush_if_needed_eq str hstr, Option.some.injEq, Prod.mk.injEq] at h
        rw [← h.1]
        intro kv hkv
        rcases mem_out_assign_insert _ _ _ _ kv hkv with h1 | h1
        · rw [h1]
          by_cases he : ends_line str = true
          · rw [if_pos he]; rfl
          · rw [if_neg he]; simpa using he
        · exact htidy kv h1
      | some line =>
        have hne : line ++ str ≠ [] := by simp [hstr]
        simp only [hf, flush_if_needed_eq _ hne, Option.some.injEq, Prod.mk.injEq] at h
        rw [← h.1]
        intro kv hkv
        rcases mem_out_assign _ _ _ kv hkv with h1 | h1
        · rw [h1]
          by_cases he : ends_line (line ++ str) = true
          · rw [if_pos he]; rfl
          · rw [if_neg he]; simpa using he
        · exact htidy kv h1
  | flush =>
    simp only [printer_handle, hmsg, Option.some.injEq, Prod.mk.injEq] at h
    rw [← h.1]
    intro kv hkv
    rcases mem_flush_output _ _ kv hkv with h1 | h1
    · rw [h1]; rfl
    · exact htidy kv h1
  | down_msg source reason =>
    simp only [printer_handle, hmsg, Option.some.injEq, Prod.mk.injEq] at h
    rw [← h.1]
    intro kv hkv
    rcases mem_flush_output _ _ kv (mem_out_erase _ _ kv hkv) with h1 | h1
    · rw [h1]; rfl
    · exact htidy kv h1
  | exit_msg a b =>
    simp only [printer_handle, hmsg, Option.some.injEq, Prod.mk.injEq] at h
    rw [← h.1]; exact htidy
  | delayed d f t m p =>
    simp only [printer_handle, hmsg, Option.some.injEq, Prod.mk.injEq] at h
    rw [← h.1]; exact htidy
  | other n =>
    simp only [printer_handle, hmsg, Option.some.injEq, Prod.mk.injEq] at h
    rw [← h.1]; exact htidy

theorem printer_loop_tidy (mailbox : List mailbox_element) (st st2 : printer_state)
    (tr : List printer_event) (hrun : printer_loop st mailbox = some (st2, tr))
    (htidy : ∀ kv ∈ st.out, ends_line kv.2 = false) :
    ∀ kv ∈ st2.out, ends_line kv.2 = false := by
  induction mailbox generalizing st tr with
  | nil =>
    simp only [printer_loop, Option.some.injEq, Prod.mk.injEq] at hrun
    rw [← hrun.1]; exact htidy
  | cons e rest ih =>
    cases hr : st.running with
    | false =>
      simp only [printer_loop, hr, Bool.false_eq_true, if_false, Option.some.injEq,
        Prod.mk.injEq] at hrun
      rw [← hrun.1]; exact htidy
    | true =>
      obtain ⟨st1, ev, h1⟩ := printer_handle_total st e
      obtain ⟨st3, tr1, h2, h3⟩ := printer_loop_cons st st1 e rest ev hr h1
      rw [h3] at hrun
      simp only [Option.some.injEq, Prod.mk.injEq] at hrun
      rw [hrun.1] at h2
      exact ih st1 tr1 h2 (printer_handle_tidy st st1 e ev h1 htidy)

/-- C19. Invariant of the stored texts: for every sequence of requests (appends,
flushes, termination notifications, exit signals, anything else) handled from the
initial state with its empty map, `printer_loop` returns, and in the map it has then
every text is empty or ends with a character other than the line terminator. As
every initial part of a mailbox is a mailbox, this holds after every handled
request. -/
theorem output_buffers_never_end_line (mailbox : List mailbox_element) :
    ∃ st tr, printer_loop printer_init mailbox = some (st, tr) ∧
      ∀ kv ∈ st.out, kv.2 = [] ∨ ∃ c, kv.2.getLast? = some c ∧ c ≠ '\n' := by
  obtain ⟨st, tr, hrun⟩ := printer_loop_total mailbox printer_init
  refine ⟨st, tr, hrun, ?_⟩
  intro kv hkv
  have h := printer_loop_tidy mailbox printer_init st tr hrun
    (by intro x hx; simp [printer_init] at hx) kv hkv
  cases hl : kv.2.getLast? with
  | none => exact Or.inl (List.getLast?_eq_none_iff.mp hl)
  | some c =>
    right
    refine ⟨c, rfl, ?_⟩
    intro hc
    rw [ends_line, hl, hc] at h
    simp at h

theorem output_buffers_never_end_line_witness :
    printer_loop printer_init sample.mailbox_all_kinds =
      some (⟨false, [(3, ['c']), (1, ['a', '\n', 'b'])]⟩,
        [.monitor 1, .monitor 2, .cout 2 ['x', '\n'], .cout 1 ['f', 'o'], .cerr (.other 9),
          .monitor 3]) ∧
    ∃ st tr, printer_loop printer_init sample.mailbox_all_kinds = some (st, tr) ∧
      ∀ kv ∈ st.out, kv.2 = [] ∨ ∃ c, kv.2.getLast? = some c ∧ c ≠ '\n' :=
  ⟨by decide, output_buffers_never_end_line sample.mailbox_all_kinds⟩

/-! ## Output multiplexer: the last character is there -/

theorem add_to_buffer_text (out : out_map) (s : actor_addr) (str : string)
    (hstr : str ≠ []) : (add_to_buffer out s str).2.2 ≠ [] := by
  unfold add_to_buffer
  cases out_find out s with
  | none => exact hstr
  | some line => simp [hstr]

/-- C20. Safety of `str.back()`: `flush_if_needed` has no result exactly on the empty
text; the add handler calls it only behind the bookkeeping of a non-empty fragment,
on a text that is then non-empty; so for every state of the output multiplexer
(reachable or not) and every mailbox element the handler returns, and so does
`printer_loop` on every mailbox. -/
theorem output_last_char_defined (st : printer_state) (e : mailbox_element)
    (mailbox : List mailbox_element) :
    (∀ t : string, flush_if_needed t = none ↔ t = []) ∧
    (∀ str, e.msg = .add str → str ≠ [] → e.sender ≠ invalid_actor_addr →
      (add_to_buffer st.out e.sender str).2.2 ≠ [] ∧
      printer_handle st e =
        flush_added st.running e.sender (add_to_buffer st.out e.sender str)) ∧
    (∀ str, e.msg = .add str → (str = [] ∨ e.sender = invalid_actor_addr) →
      printer_handle st e = some (st, [])) ∧
    (∃ st1 ev, printer_handle st e = some (st1, ev)) ∧
    (∃ st2 tr, printer_loop st mailbox = some (st2, tr)) := by
  refine ⟨?_, ?_, ?_, printer_handle_total st e, printer_loop_total mailbox st⟩
  · intro t
    constructor
    · intro h
      by_cases ht : t = []
      · exact ht
      · rw [flush_if_needed_eq t ht] at h
        cases h
    · intro h
      subst h
      rfl
  · intro str hmsg hstr hs
    exact ⟨add_to_buffer_text _ _ _ hstr, printer_handle_add_steps st e str hmsg hstr hs⟩
  · intro str hmsg hrej
    simp only [printer_handle, hmsg, hrej, if_true]

theorem output_last_char_defined_witness :
    flush_if_needed [] = none ∧
    flush_if_needed ['a', '\n'] = some ([['a', '\n']], []) ∧
    (∃ st1 ev, printer_handle sample.two_buffers sample.elem_add_bar = some (st1, ev)) :=
  ⟨by decide, by decide,
    (output_last_char_defined sample.two_buffers sample.elem_add_bar []).2.2.2.1⟩

/-! ## Output multiplexer: appends alone -/

theorem idle_flushes_appends (mailbox : List mailbox_element) (st : printer_state)
    (hadd : ∀ e ∈ mailbox, is_append e = true) : idle_flushes st mailbox = true := by
  induction mailbox generalizing st with
  | nil => rfl
  | cons e rest ih =>
    have hmsg : ∃ str, e.msg = .add str := by
      have h := hadd e (List.mem_cons_self _ _)
      unfold is_append at h
      cases hm : e.msg with
      | add str => exact ⟨str, rfl⟩
      | flush => rw [hm] at h; cases h
      | down_msg a b => rw [hm] at h; cases h
      | exit_msg a b => rw [hm] at h; cases h
      | delayed d f t m p => rw [hm] at h; cases h
      | other n => rw [hm] at h; cases h
    obtain ⟨str, hmsg⟩ := hmsg
    have hrest : ∀ x ∈ rest, is_append x = true :=
      fun x hx => hadd x (List.mem_cons_of_mem _ hx)
    cases hr : st.running with
    | false => simp [idle_flushes, hr]
    | true =>
      obtain ⟨st1, ev, h1⟩ := printer_handle_total st e
      simp [idle_flushes, hr, idle_flush, hmsg, h1, ih st1 hrest]

/-! ## Output multiplexer: accumulation of fragments -/

theorem writes_for_append (s : actor_addr) (a b : List printer_event) :
    writes_for s (a ++ b) = writes_for s a ++ writes_for s b := by
  simp [writes_for]

theorem writes_for_other (s s1 : actor_addr) (texts : List string) (h : s1 ≠ s) :
    writes_for s (texts.map (printer_event.cout s1)) = [] := by
  unfold writes_for
  apply List.filterMap_eq_nil_iff.mpr
  intro ev hev
  obtain ⟨t, _, ht⟩ := List.mem_map.mp hev
  subst ht
  simp [h]

theorem buffer_after_append_eq (out : out_map) (s : actor_addr) (str : string) :
    buffer_after_append out s str = buffer_of out s ++ str := by
  unfold buffer_after_append buffer_of
  cases out_find out s with
  | none => rfl
  | some line => rfl

theorem printer_handle_own_append (st : printer_state) (e : mailbox_element) (str : string)
    (hmsg : e.msg = .add str) (hstr : str ≠ []) (hs : e.sender ≠ invalid_actor_addr) :
    ∃ st1 ev, printer_handle st e = some (st1, ev) ∧ st1.running = st.running ∧
      writes_for e.sender ev =
        (if ends_line (buffer_of st.out e.sender ++ str) = true
          then [buffer_of st.out e.sender ++ str] else []) ∧
      buffer_of st1.out e.sender =
        (if ends_line (buffer_of st.out e.sender ++ str) = true then []
          else buffer_of st.out e.sender ++ str) := by
  obtain ⟨out1, h1, h2, _⟩ := printer_handle_add st e str hmsg hstr hs
  rw [buffer_after_append_eq] at h1 h2
  refine ⟨_, _, h1, rfl, ?_, ?_⟩
  · by_cases hf : out_find st.out e.sender = none <;>
      by_cases he : ends_line (buffer_of st.out e.sender ++ str) = true <;>
        simp [writes_for, hf, he]
  · simp only [buffer_of, h2]

theorem printer_handle_foreign (st : printer_state) (e : mailbox_element) (s : actor_addr)
    (hcalm : undisturbed s e = true)
    (hother : ∀ str, e.msg = .add str → e.sender ≠ s) :
    ∃ st1 ev, printer_handle st e = some (st1, ev) ∧ st1.running = st.running ∧
      writes_for s ev = [] ∧ out_find st1.out s = out_find st.out s := by
  cases hmsg : e.msg with
  | add str =>
    have hne : e.sender ≠ s := hother str hmsg
    by_cases hrej : str = [] ∨ e.sender = invalid_actor_addr
    · exact ⟨st, [], by simp only [printer_handle, hmsg, hrej, if_true], rfl, rfl, rfl⟩
    · obtain ⟨out1, h1, _, h3⟩ := printer_handle_add st e str hmsg
        (fun hx => hrej (Or.inl hx)) (fun hx => hrej (Or.inr hx))
      refine ⟨_, _, h1, rfl, ?_, h3 s (Ne.symm hne)⟩
      by_cases hf : out_find st.out e.sender = none <;>
        by_cases he : ends_line (buffer_after_append st.out e.sender str) = true <;>
          simp [writes_for, hf, he, hne]
  | flush =>
    have hne : e.sender ≠ s := by simpa [undisturbed, hmsg] using hcalm
    refine ⟨⟨st.running, (flush_output st.out e.sender).2⟩,
      (flush_output st.out e.sender).1.map (printer_event.cout e.sender),
      by simp only [printer_handle, hmsg], rfl,
      writes_for_other s e.sender _ hne, flush_output_find_other _ _ _ (Ne.symm hne)⟩
  | down_msg source reason =>
    have hne : source ≠ s := by simpa [undisturbed, hmsg] using hcalm
    refine ⟨⟨st.running, out_erase (flush_output st.out source).2 source⟩,
      (flush_output st.out source).1.map (printer_event.cout source),
      by simp only [printer_handle, hmsg], rfl,
      writes_for_other s source _ hne, ?_⟩
    rw [out_find_erase_other _ _ _ (Ne.symm hne),
      flush_output_find_other _ _ _ (Ne.symm hne)]
  | exit_msg a b => simp [undisturbed, hmsg] at hcalm
  | delayed d f t m p =>
    exact ⟨st, [.cerr (.delayed d f t m p)], by simp only [printer_handle, hmsg], rfl,
      by simp [writes_for], rfl⟩
  | other n =>
    exact ⟨st, [.cerr (.other n)], by simp only [printer_handle, hmsg], rfl,
      by simp [writes_for], rfl⟩

theorem printer_loop_writes_for (s : actor_addr) (hs : s ≠ invalid_actor_addr)
    (mailbox : List mailbox_element) (st : printer_state) (hr : st.running = true)
    (hcalm : ∀ e ∈ mailbox, undisturbed s e = true)
    (hne : ∀ f ∈ fragments_of s mailbox, f ≠ []) :
    ∃ st2 tr, printer_loop st mailbox = some (st2, tr) ∧
      writes_for s tr = expected_writes (buffer_of st.out s) (fragments_of s mailbox) := by
  induction mailbox generalizing st with
  | nil => exact ⟨st, [], rfl, rfl⟩
  | cons e rest ih =>
    have hcalm_e := hcalm e (List.mem_cons_self _ _)
    have hcalm_rest : ∀ x ∈ rest, undisturbed s x = true :=
      fun x hx => hcalm x (List.mem_cons_of_mem _ hx)
    by_cases hown : ∃ str, e.msg = .add str ∧ e.sender = s
    · obtain ⟨str, hmsg, hsender⟩ := hown
      have hfr : fragments_of s (e :: rest) = str :: fragments_of s rest := by
        simp [fragments_of, hmsg, hsender]
      have hstr : str ≠ [] := hne str (by rw [hfr]; exact List.mem_cons_self _ _)
      have hne_rest : ∀ f ∈ fragments_of s rest, f ≠ [] :=
        fun f hf => hne f (by rw [hfr]; exact List.mem_cons_of_mem _ hf)
      subst hsender
      obtain ⟨st1, ev, h1, h2, h3, h4⟩ := printer_handle_own_append st e str hmsg hstr hs
      obtain ⟨st2, tr, h5, h6⟩ := printer_loop_cons st st1 e rest ev hr h1
      obtain ⟨st3, tr1, h7, h8⟩ := ih st1 (h2.trans hr) hcalm_rest hne_rest
      rw [h5] at h7
      simp only [Option.some.injEq, Prod.mk.injEq] at h7
      refine ⟨st2, ev ++ tr, h6, ?_⟩
      rw [writes_for_append, h3, h7.2, h8, h4, hfr]
      by_cases he : ends_line (buffer_of st.out e.sender ++ str) = true
      · simp [expected_writes, he]
      · simp [expected_writes, he]
    · have hother : ∀ str, e.msg = .add str → e.sender ≠ s :=
        fun str hm hsd => hown ⟨str, hm, hsd⟩
      have hfr : fragments_of s (e :: rest) = fragments_of s rest := by
        cases hm : e.msg with
        | add str => simp [fragments_of, hm, hother str hm]
        | flush => simp [fragments_of, hm]
        | down_msg a b => simp [fragments_of, hm]
        | exit_msg a b => simp [fragments_of, hm]
        | delayed d f t m p => simp [fragments_of, hm]
        | other n => simp [fragments_of, hm]
      obtain ⟨st1, ev, h1, h2, h3, h4⟩ := printer_handle_foreign st e s hcalm_e hother
      obtain ⟨st2, tr, h5, h6⟩ := printer_loop_cons st st1 e rest ev hr h1
      obtain ⟨st3, tr1, h7, h8⟩ :=
        ih st1 (h2.trans hr) hcalm_rest (by rw [← hfr]; exact hne)
      rw [h5] at h7
      simp only [Option.some.injEq, Prod.mk.injEq] at h7
      refine ⟨st2, ev ++ tr, h6, ?_⟩
      rw [writes_for_append, h3, h7.2, h8, hfr]
      simp only [buffer_of, h4, List.nil_append]

theorem expected_writes_one_line (b : string) (front : List string) (last : string)
    (hfront : ∀ f ∈ front, f ≠ [] ∧ ends_line f = false) (hlast : ends_line last = true) :
    expected_writes b (front ++ [last]) = [b ++ concat_all (front ++ [last])] := by
  have hlast_ne : last ≠ [] := by
    intro h; subst h; simp [ends_line] at hlast
  induction front generalizing b with
  | nil =>
    have he : ends_line (b ++ last) = true := by
      rw [ends_line_append b last hlast_ne]; exact hlast
    simp [expected_writes, he, concat_all]
  | cons f fs ih =>
    obtain ⟨hf1, hf2⟩ := hfront f (List.mem_cons_self _ _)
    have he : ¬ ends_line (b ++ f) = true := by
      rw [ends_line_append b f hf1, hf2]; simp
    have hrec := ih (b ++ f) (fun x hx => hfront x (List.mem_cons_of_mem _ hx))
    simp only [List.cons_append, expected_writes, concat_all, List.append_eq]
    rw [if_neg he, hrec, List.append_assoc]

/-- C15. Accumulation: let the valid sender `s` have no entry, or an empty one, in a
running output multiplexer, and let the mailbox hold no flush request of `s`, no
termination notification of `s` and no exit signal (requests of other senders may
stand anywhere). If the fragments that `s` appends are `f1, ..., fn` with `n ≥ 1`,
all but the last non-empty and not ending with a line terminator, the last ending
with one, then `printer_loop` returns and `std::cout` gets exactly one write for
`s`: the text `f1 ++ ... ++ fn`. -/
theorem output_accumulation (st : printer_state) (s : actor_addr)
    (mailbox : List mailbox_element) (front : List string) (last : string)
    (hr : st.running = true) (hs : s ≠ invalid_actor_addr)
    (hstart : out_find st.out s = none ∨ out_find st.out s = some [])
    (hcalm : ∀ e ∈ mailbox, undisturbed s e = true)
    (hfs : fragments_of s mailbox = front ++ [last])
    (hfront : ∀ f ∈ front, f ≠ [] ∧ ends_line f = false)
    (hlast : ends_line last = true) :
    ∃ st2 tr, printer_loop st mailbox = some (st2, tr) ∧
      writes_for s tr = [concat_all (front ++ [last])] := by
  have hlast_ne : last ≠ [] := by
    intro h; subst h; simp [ends_line] at hlast
  have hne : ∀ f ∈ fragments_of s mailbox, f ≠ [] := by
    intro f hf
    rw [hfs] at hf
    rcases List.mem_append.mp hf with h | h
    · exact (hfront f h).1
    · rw [List.mem_singleton.mp h]; exact hlast_ne
  obtain ⟨st2, tr, h1, h2⟩ := printer_loop_writes_for s hs mailbox st hr hcalm hne
  have hb : buffer_of st.out s = [] := by
    rcases hstart with h | h <;> simp [buffer_of, h]
  refine ⟨st2, tr, h1, ?_⟩
  rw [h2, hfs, hb, expected_writes_one_line [] front last hfront hlast]
  rfl

theorem output_accumulation_witness :
    printer_loop printer_init sample.mailbox_foo_bar =
      some (⟨true, [(2, []), (1, [])]⟩,
        [.monitor 1, .monitor 2, .cout 2 ['x'], .cout 1 ['f', 'o', 'o', 'b', 'a', 'r', '\n'],
          .monitor 2, .cout 2 ['y', '\n']]) ∧
    ∃ st2 tr, printer_loop printer_init sample.mailbox_foo_bar = some (st2, tr) ∧
      writes_for 1 tr = [concat_all ([['f', 'o', 'o']] ++ [['b', 'a', 'r', '\n']])] :=
  ⟨by decide,
    output_accumulation printer_init 1 sample.mailbox_foo_bar [['f', 'o', 'o']]
      ['b', 'a', 'r', '\n'] rfl (by decide) (Or.inl rfl) (by decide) (by decide)
      (by decide) (by decide)⟩

/-! ## Coordinator: the service handles -/

/-- C16, as stated, fails: a coordinator whose services run as the actors 101 and 102
calls `stop_actors`, both termination notifications arrive and the call returns;
both handles are then still 101 and 102, not the invalid handle. -/
theorem coordinator_handles_after_stop_counterexample :
    (abstract_coordinator.stop_actors sample.coordinator3 sample.downs_timer_first).stat
      = .exited ∧
    (abstract_coordinator.stop_actors sample.coordinator3
      sample.downs_timer_first).coord.m_timer = 101 ∧
    (abstract_coordinator.stop_actors sample.coordinator3
      sample.downs_timer_first).coord.m_printer = 102 ∧
    (101 : actor) ≠ invalid_actor ∧ (102 : actor) ≠ invalid_actor := by
  decide

/-- C16, amended. `stop_actors` leaves the coordinator as it is: after it both
service handles are the handles that were there before, they are not invalidated.
The constructor leaves both handles invalid and ` abstract_coordinator.initialize `
sets both, to the handles that `spawn` returned; so with valid handles from `spawn`
the handles are both invalid after the constructor and both valid after
initialization, and `stop_actors` keeps whichever of the two holds. -/
theorem coordinator_handles_after_stop (c : abstract_coordinator) (nw : Nat)
    (timer printer : actor) (mailbox : List mailbox_element)
    (htimer : timer ≠ invalid_actor) (hprinter : printer ≠ invalid_actor) :
    (abstract_coordinator.stop_actors c mailbox).coord = c ∧
    (handles_agree c → handles_agree (abstract_coordinator.stop_actors c mailbox).coord) ∧
    ((abstract_coordinator.ctor nw).m_timer = invalid_actor ∧
      (abstract_coordinator.ctor nw).m_printer = invalid_actor ∧
      handles_agree (abstract_coordinator.ctor nw)) ∧
    (( abstract_coordinator.initialize c timer printer).m_timer = timer ∧
      ( abstract_coordinator.initialize c timer printer).m_printer = printer ∧
      handles_agree ( abstract_coordinator.initialize c timer printer)) := by
  refine ⟨rfl, fun h => h, ⟨rfl, rfl, Or.inl ⟨rfl, rfl⟩⟩, rfl, rfl, Or.inr ⟨htimer, hprinter⟩⟩

theorem coordinator_handles_after_stop_witness :
    (abstract_coordinator.stop_actors sample.coordinator3 sample.downs_timer_first).coord
      = sample.coordinator3 ∧
    (handles_agree sample.coordinator3 →
      handles_agree (abstract_coordinator.stop_actors sample.coordinator3
        sample.downs_timer_first).coord) ∧
    ((abstract_coordinator.ctor 3).m_timer = invalid_actor ∧
      (abstract_coordinator.ctor 3).m_printer = invalid_actor ∧
      handles_agree (abstract_coordinator.ctor 3)) ∧
    (( abstract_coordinator.initialize sample.coordinator3 101 102).m_timer = 101 ∧
      ( abstract_coordinator.initialize sample.coordinator3 101 102).m_printer = 102 ∧
      handles_agree ( abstract_coordinator.initialize sample.coordinator3 101 102)) :=
  coordinator_handles_after_stop sample.coordinator3 3 101 102 sample.downs_timer_first
    (by decide) (by decide)

/-! ## Coordinator: round robin -/

theorem assign_workers_indices (n : Nat) (c : abstract_coordinator) :
    (assign_workers n c).1 =
      (List.range n).map (fun i => (c.m_next_worker + i) % c.m_num_workers) ∧
    (assign_workers n c).2.m_num_workers = c.m_num_workers := by
  induction n generalizing c with
  | zero => exact ⟨rfl, rfl⟩
  | succ n ih =>
    obtain ⟨h1, h2⟩ := ih (abstract_coordinator.assign_worker c).2
    have hstep : assign_workers (n + 1) c =
        ((abstract_coordinator.assign_worker c).1 ::
            (assign_workers n (abstract_coordinator.assign_worker c).2).1,
          (assign_workers n (abstract_coordinator.assign_worker c).2).2) := rfl
    constructor
    · rw [hstep, List.range_succ_eq_map, List.map_cons, List.map_map]
      show (abstract_coordinator.assign_worker c).1 ::
          (assign_workers n (abstract_coordinator.assign_worker c).2).1 =
        (c.m_next_worker + 0) % c.m_num_workers ::
          List.map ((fun i => (c.m_next_worker + i) % c.m_num_workers) ∘ Nat.succ)
            (List.range n)
      rw [h1]
      congr 1
      apply List.map_congr_left
      intro i _
      show ((c.m_next_worker + 1) % c.m_num_workers + i) % c.m_num_workers =
        (c.m_next_worker + (i + 1)) % c.m_num_workers
      rw [Nat.mod_add_mod]
      congr 1
      omega
    · rw [hstep]
      exact h2

/-- C17. Round robin: for a coordinator constructed with `W ≥ 1` workers (the cursor
starts at 0), `W + 1` calls of `assign_worker` in sequence return the indices
`0, 1, ..., W - 1, 0`; and in a sequence of any number of calls no call returns an
index of `W` or more. -/
theorem coordinator_round_robin (W : Nat) (hW : 1 ≤ W) :
    (assign_workers (W + 1) (abstract_coordinator.ctor W)).1 = List.range W ++ [0] ∧
    ∀ n, ∀ i ∈ (assign_workers n (abstract_coordinator.ctor W)).1, i < W := by
  constructor
  · rw [(assign_workers_indices (W + 1) (abstract_coordinator.ctor W)).1]
    simp only [abstract_coordinator.ctor, Nat.zero_add, List.range_succ, List.map_append,
      List.map_cons, List.map_nil, Nat.mod_self]
    congr 1
    have hmap : ∀ l : List Nat, (∀ i ∈ l, i < W) → l.map (fun i => i % W) = l := by
      intro l hl
      induction l with
      | nil => rfl
      | cons x xs ih =>
        simp only [List.map_cons]
        rw [Nat.mod_eq_of_lt (hl x (List.mem_cons_self _ _)),
          ih (fun i hi => hl i (List.mem_cons_of_mem _ hi))]
    exact hmap _ (fun i hi => List.mem_range.mp hi)
  · intro n i hi
    rw [(assign_workers_indices n (abstract_coordinator.ctor W)).1] at hi
    obtain ⟨j, _, hj⟩ := List.mem_map.mp hi
    rw [← hj]
    exact Nat.mod_lt _ hW

theorem coordinator_round_robin_witness :
    (assign_workers 5 (abstract_coordinator.ctor 3)).1 = [0, 1, 2, 0, 1] ∧
    (assign_workers (3 + 1) (abstract_coordinator.ctor 3)).1 = List.range 3 ++ [0] ∧
    ∀ n, ∀ i ∈ (assign_workers n (abstract_coordinator.ctor 3)).1, i < 3 :=
  ⟨by decide, coordinator_round_robin 3 (by decide)⟩

/-! ## Coordinator: shutdown -/

theorem receive_for_downs (n : Nat) (mailbox : List mailbox_element) :
    (receive_for n mailbox).1 =
      ((down_sources mailbox).take n).map stop_event.down_handled ∧
    ((receive_for n mailbox).2 = .exited ↔ n ≤ (down_sources mailbox).length) ∧
    ((receive_for n mailbox).2 = .exited ∨ (receive_for n mailbox).2 = .blocked) := by
  induction mailbox generalizing n with
  | nil =>
    cases n with
    | zero => simp [receive_for, down_sources]
    | succ k => simp [receive_for, down_sources]
  | cons e rest ih =>
    cases n with
    | zero => simp [receive_for]
    | succ k =>
      cases hm : e.msg with
      | down_msg source reason =>
        obtain ⟨h1, h2, h3⟩ := ih k
        have hd : down_sources (e :: rest) = source :: down_sources rest := by
          simp [down_sources, hm]
        refine ⟨?_, ?_, ?_⟩
        · simp only [receive_for, hm, hd, List.take_succ_cons, List.map_cons, h1]
        · simp only [receive_for, hm, hd, List.length_cons, Nat.add_le_add_iff_right]
          exact h2
        · simp only [receive_for, hm]
          exact h3
      | add str =>
        have hd : down_sources (e :: rest) = down_sources rest := by
          simp [down_sources, hm]
        simp only [receive_for, hm, hd]
        exact ih (k + 1)
      | flush =>
        have hd : down_sources (e :: rest) = down_sources rest := by
          simp [down_sources, hm]
        simp only [receive_for, hm, hd]
        exact ih (k + 1)
      | exit_msg a b =>
        have hd : down_sources (e :: rest) = down_sources rest := by
          simp [down_sources, hm]
        simp only [receive_for, hm, hd]
        exact ih (k + 1)
      | delayed d f t m p =>
        have hd : down_sources (e :: rest) = down_sources rest := by
          simp [down_sources, hm]
        simp only [receive_for, hm, hd]
        exact ih (k + 1)
      | other x =>
        have hd : down_sources (e :: rest) = down_sources rest := by
          simp [down_sources, hm]
        simp only [receive_for, hm, hd]
        exact ih (k + 1)

/-- C18. Shutdown: the trace of `stop_actors` starts with the monitoring of the timer
and of the output multiplexer, followed by one exit signal to each of them, and
holds nothing else but handled termination notifications; the call returns exactly
when the mailbox of the scoped actor brings at least two termination notifications,
and otherwise stays blocked; when it returns it has handled exactly two of them, the
first two that arrived, whatever their sources and so in whichever order the two
services terminate. -/
theorem coordinator_shutdown (c : abstract_coordinator) (mailbox : List mailbox_element) :
    (abstract_coordinator.stop_actors c mailbox).trace =
      [.monitor c.m_timer, .monitor c.m_printer, .send_exit c.m_timer user_shutdown,
        .send_exit c.m_printer user_shutdown] ++
      ((down_sources mailbox).take 2).map stop_event.down_handled ∧
    ((abstract_coordinator.stop_actors c mailbox).stat = .exited ↔
      2 ≤ (down_sources mailbox).length) ∧
    ((abstract_coordinator.stop_actors c mailbox).stat = .exited ∨
      (abstract_coordinator.stop_actors c mailbox).stat = .blocked) ∧
    ((abstract_coordinator.stop_actors c mailbox).stat = .exited →
      (downs_handled (abstract_coordinator.stop_actors c mailbox).trace).length = 2 ∧
      downs_handled (abstract_coordinator.stop_actors c mailbox).trace =
        (down_sources mailbox).take 2) := by
  obtain ⟨h1, h2, h3⟩ := receive_for_downs 2 mailbox
  have htr : (abstract_coordinator.stop_actors c mailbox).trace =
      [.monitor c.m_timer, .monitor c.m_printer, .send_exit c.m_timer user_shutdown,
        .send_exit c.m_printer user_shutdown] ++
      ((down_sources mailbox).take 2).map stop_event.down_handled := by
    simp only [abstract_coordinator.stop_actors, h1]
  have hdowns : downs_handled (abstract_coordinator.stop_actors c mailbox).trace =
      (down_sources mailbox).take 2 := by
    rw [htr]
    simp only [downs_handled, List.filterMap_append, List.filterMap_cons,
      List.filterMap_nil, List.nil_append, List.filterMap_map]
    have hid : ∀ l : List actor_addr,
        l.filterMap ((fun ev => match ev with
          | stop_event.down_handled source => some source
          | _ => none) ∘ stop_event.down_handled) = l := by
      intro l
      induction l with
      | nil => rfl
      | cons x xs ih => simp only [List.filterMap_cons, Function.comp, ih]
    exact hid _
  refine ⟨htr, h2, h3, ?_⟩
  intro hex
  have hlen : 2 ≤ (down_sources mailbox).length := h2.mp hex
  refine ⟨?_, hdowns⟩
  rw [hdowns, List.length_take]
  exact Nat.min_eq_left hlen

theorem coordinator_shutdown_witness :
    (abstract_coordinator.stop_actors sample.coordinator3 sample.downs_timer_first) =
      ⟨sample.coordinator3,
        [.monitor 101, .monitor 102, .send_exit 101 user_shutdown,
          .send_exit 102 user_shutdown, .down_handled 101, .down_handled 102], .exited⟩ ∧
    (abstract_coordinator.stop_actors sample.coordinator3 sample.downs_printer_first) =
      ⟨sample.coordinator3,
        [.monitor 101, .monitor 102, .send_exit 101 user_shutdown,
          .send_exit 102 user_shutdown, .down_handled 102, .down_handled 101], .exited⟩ ∧
    (abstract_coordinator.stop_actors sample.coordinator3
      [⟨101, 0, .down_msg 101 16⟩]).stat = .blocked ∧
    ((abstract_coordinator.stop_actors sample.coordinator3
        sample.downs_printer_first).stat = .exited ↔
      2 ≤ (down_sources sample.downs_printer_first).length) :=
  ⟨by decide, by decide, by decide,
    (coordinator_shutdown sample.coordinator3 sample.downs_printer_first).2.1⟩

/-! ## Output multiplexer: where the sender changes in the output -/

theorem writes_for_map_cout (s : actor_addr) (l : List string) :
    writes_for s (l.map (printer_event.cout s)) = l := by
  induction l with
  | nil => rfl
  | cons t ts ih =>
    simp only [writes_for] at ih
    simp [writes_for, ih]

theorem concat_all_append (a b : List string) :
    concat_all (a ++ b) = concat_all a ++ concat_all b := by
  induction a with
  | nil => rfl
  | cons x xs ih => simp [concat_all, ih]

theorem flush_output_texts (out : out_map) (s : actor_addr) :
    concat_all (flush_output out s).1 = buffer_of out s ∧
    buffer_of (flush_output out s).2 s = [] ∧
    ∀ t ∈ (flush_output out s).1, t ≠ [] := by
  unfold flush_output buffer_of
  cases hf : out_find out s with
  | none => simp [concat_all, hf]
  | some line =>
    by_cases hl : line = []
    · simp [hl, concat_all, hf]
    · simp only [ne_eq, hl, not_false_eq_true, if_true, concat_all, List.append_nil,
        out_find_assign_same out s [] line hf, true_and]
      intro t ht
      rw [List.mem_singleton.mp ht]
      exact hl

theorem printer_handle_conserves (s : actor_addr) (st : printer_state)
    (e : mailbox_element) (hexit : ∀ a b, e.msg ≠ .exit_msg a b) :
    ∃ st1 ev, printer_handle st e = some (st1, ev) ∧ st1.running = st.running ∧
      ∀ rest, concat_all (writes_for s ev) ++ (buffer_of st1.out s ++ own_text s rest) =
        buffer_of st.out s ++ own_text s (e :: rest) := by
  have foreign : undisturbed s e = true → (∀ str, e.msg = .add str → e.sender ≠ s) →
      (∀ rest, own_text s (e :: rest) = own_text s rest) →
      ∃ st1 ev, printer_handle st e = some (st1, ev) ∧ st1.running = st.running ∧
        ∀ rest, concat_all (writes_for s ev) ++ (buffer_of st1.out s ++ own_text s rest) =
          buffer_of st.out s ++ own_text s (e :: rest) := by
    intro hcalm hother hown
    obtain ⟨st1, ev, h1, h2, h3, h4⟩ := printer_handle_foreign st e s hcalm hother
    refine ⟨st1, ev, h1, h2, ?_⟩
    intro rest
    rw [h3, hown rest]
    simp only [buffer_of, h4, concat_all, List.nil_append]
  cases hmsg : e.msg with
  | add str =>
    by_cases hs : e.sender = s
    · by_cases hrej : str = [] ∨ e.sender = invalid_actor_addr
      · refine ⟨st, [], by simp only [printer_handle, hmsg, hrej, if_true], rfl, ?_⟩
        intro rest
        rcases hrej with h1 | h1
        · simp [own_text, hmsg, h1, writes_for, concat_all]
        · have hinv : s = invalid_actor_addr := hs ▸ h1
          simp [own_text, hmsg, hinv, writes_for, concat_all]
      · have hstr : str ≠ [] := fun hx => hrej (Or.inl hx)
        have hval : e.sender ≠ invalid_actor_addr := fun hx => hrej (Or.inr hx)
        obtain ⟨st1, ev, h1, h2, h3, h4⟩ := printer_handle_own_append st e str hmsg hstr hval
        subst hs
        refine ⟨st1, ev, h1, h2, ?_⟩
        intro rest
        rw [h3, h4]
        have hown : own_text e.sender (e :: rest) = str ++ own_text e.sender rest := by
          simp [own_text, hmsg, hval]
        rw [hown]
        by_cases he : ends_line (buffer_of st.out e.sender ++ str) = true
        · simp [he, concat_all]
        · simp [he, concat_all]
    · exact foreign (by simp [undisturbed, hmsg]) (fun _ _ => hs)
        (fun rest => by simp [own_text, hmsg, hs])
  | flush =>
    by_cases hs : e.sender = s
    · refine ⟨⟨st.running, (flush_output st.out e.sender).2⟩,
        (flush_output st.out e.sender).1.map (printer_event.cout e.sender),
        by simp only [printer_handle, hmsg], rfl, ?_⟩
      intro rest
      subst hs
      obtain ⟨h1, h2, _⟩ := flush_output_texts st.out e.sender
      rw [writes_for_map_cout, h1, h2]
      simp [own_text, hmsg]
    · exact foreign (by simp [undisturbed, hmsg, hs]) (fun str hm => by rw [hmsg] at hm; cases hm)
        (fun rest => by simp [own_text, hmsg])
  | down_msg source reason =>
    by_cases hs : source = s
    · refine ⟨⟨st.running, out_erase (flush_output st.out source).2 source⟩,
        (flush_output st.out source).1.map (printer_event.cout source),
        by simp only [printer_handle, hmsg], rfl, ?_⟩
      intro rest
      subst hs
      obtain ⟨h1, _, _⟩ := flush_output_texts st.out source
      have h2 : buffer_of (out_erase (flush_output st.out source).2 source) source = [] := by
        simp [buffer_of, out_find_erase_same]
      rw [writes_for_map_cout, h1, h2]
      simp [own_text, hmsg]
    · exact foreign (by simp [undisturbed, hmsg, hs]) (fun str hm => by rw [hmsg] at hm; cases hm)
        (fun rest => by simp [own_text, hmsg])
  | exit_msg a b => exact absurd hmsg (hexit a b)
  | delayed d f t m p =>
    exact foreign (by simp [undisturbed, hmsg]) (fun str hm => by rw [hmsg] at hm; cases hm)
      (fun rest => by simp [own_text, hmsg])
  | other n =>
    exact foreign (by simp [undisturbed, hmsg]) (fun str hm => by rw [hmsg] at hm; cases hm)
      (fun rest => by simp [own_text, hmsg])

theorem printer_loop_conserves (s : actor_addr) (mailbox : List mailbox_element)
    (st : printer_state) (hr : st.running = true) :
    ∃ st2 tr, printer_loop st mailbox = some (st2, tr) ∧
      concat_all (writes_for s tr) ++ buffer_of st2.out s =
        buffer_of st.out s ++ own_text s mailbox := by
  induction mailbox generalizing st with
  | nil => exact ⟨st, [], rfl, by simp [writes_for, concat_all, own_text]⟩
  | cons e rest ih =>
    by_cases hexit : ∃ a b, e.msg = .exit_msg a b
    · obtain ⟨a, b, hmsg⟩ := hexit
      have h1 : printer_handle st e = some ({ st with running := false }, []) := by
        simp only [printer_handle, hmsg]
      have h2 : printer_loop { st with running := false } rest =
          some ({ st with running := false }, []) := by
        cases rest with
        | nil => rfl
        | cons x xs => simp [printer_loop]
      refine ⟨{ st with running := false }, [], by simp [printer_loop, hr, h1, h2], ?_⟩
      simp [writes_for, concat_all, own_text, hmsg]
    · have hne : ∀ a b, e.msg ≠ .exit_msg a b := fun a b hm => hexit ⟨a, b, hm⟩
      obtain ⟨st1, ev, h1, h2, h3⟩ := printer_handle_conserves s st e hne
      obtain ⟨st2, tr, h4, h5⟩ := ih st1 (h2.trans hr)
      refine ⟨st2, ev ++ tr, by simp [printer_loop, hr, h1, h4], ?_⟩
      rw [writes_for_append, concat_all_append, List.append_assoc, h5, h3 rest]

/-! ## Output multiplexer: lines and senders -/

theorem split_lines_infix (xs cur : List (actor_addr × Char)) :
    ∀ line ∈ split_lines cur xs, ∃ u v, cur ++ xs = u ++ line ++ v := by
  induction xs generalizing cur with
  | nil =>
    intro line hl
    by_cases hc : cur = []
    · simp [split_lines, hc] at hl
    · simp only [split_lines, hc, if_false, List.mem_singleton] at hl
      exact ⟨[], [], by simp [hl]⟩
  | cons x xs ih =>
    intro line hl
    by_cases hx : x.2 = '\n'
    · simp only [split_lines, hx, if_true] at hl
      rcases List.mem_cons.mp hl with h1 | h1
      · exact ⟨[], xs, by simp [h1]⟩
      · obtain ⟨u, v, huv⟩ := ih [] line h1
        simp only [List.nil_append] at huv
        exact ⟨cur ++ [x] ++ u, v, by simp [huv]⟩
    · simp only [split_lines, hx, if_false] at hl
      obtain ⟨u, v, huv⟩ := ih (cur ++ [x]) line hl
      exact ⟨u, v, by rw [← huv]; simp⟩

theorem sink_lines_within_write (tr : List printer_event)
    (hall : ∀ text ∈ couts tr, ends_line text = true) :
    ∀ line ∈ sink_lines tr, ∃ s text, printer_event.cout s text ∈ tr ∧
      ∃ u v, text.map (fun c => (s, c)) = u ++ line ++ v := by
  induction tr with
  | nil => intro line hl; simp [sink_lines, sink_chars, split_lines] at hl
  | cons ev tr ih =>
    have lift : (∀ t ∈ couts tr, ends_line t = true) →
        ∀ line ∈ sink_lines tr, ∃ s text, printer_event.cout s text ∈ ev :: tr ∧
          ∃ u v, text.map (fun c => (s, c)) = u ++ line ++ v := by
      intro h2 line hl
      obtain ⟨s, text, hm, huv⟩ := ih h2 line hl
      exact ⟨s, text, List.mem_cons_of_mem _ hm, huv⟩
    cases ev with
    | cout s text =>
      have h1 : ends_line text = true := hall text (by simp [couts])
      have h2 : ∀ t ∈ couts tr, ends_line t = true := by
        intro t ht
        exact hall t (by simp only [couts, List.filterMap_cons] at ht ⊢; exact
          List.mem_cons_of_mem _ ht)
      have hend : ∃ front s1, text.map (fun c => (s, c)) = front ++ [(s1, '\n')] := by
        unfold ends_line at h1
        obtain ⟨ys, hys⟩ := List.getLast?_eq_some_iff.mp (by simpa using h1)
        exact ⟨ys.map (fun c => (s, c)), s, by rw [hys]; simp⟩
      intro line hl
      simp only [sink_lines, sink_chars] at hl
      rw [split_lines_block _ _ _ hend] at hl
      rcases List.mem_append.mp hl with h | h
      · obtain ⟨u, v, huv⟩ := split_lines_infix _ [] line h
        exact ⟨s, text, List.mem_cons_self _ _, u, v, by simpa using huv⟩
      · exact lift h2 line h
    | monitor s =>
      have h2 : ∀ t ∈ couts tr, ends_line t = true := by
        intro t ht
        exact hall t (by simpa [couts] using ht)
      intro line hl
      exact lift h2 line (by simpa [sink_lines, sink_chars] using hl)
    | cerr m =>
      have h2 : ∀ t ∈ couts tr, ends_line t = true := by
        intro t ht
        exact hall t (by simpa [couts] using ht)
      intro line hl
      exact lift h2 line (by simpa [sink_lines, sink_chars] using hl)

theorem mem_concat_all (l : List string) (t : string) (h : t ∈ l) :
    ∃ p q, concat_all l = p ++ t ++ q := by
  induction l with
  | nil => cases h
  | cons x xs ih =>
    rcases List.mem_cons.mp h with h1 | h1
    · exact ⟨[], concat_all xs, by simp [concat_all, h1]⟩
    · obtain ⟨p, q, hpq⟩ := ih h1
      exact ⟨x ++ p, q, by simp [concat_all, hpq]⟩

theorem own_text_appends (s : actor_addr) (mailbox : List mailbox_element)
    (hadd : ∀ e ∈ mailbox, is_append e = true) :
    (s ≠ invalid_actor_addr → own_text s mailbox = concat_all (fragments_of s mailbox)) ∧
    (s = invalid_actor_addr → own_text s mailbox = []) := by
  induction mailbox with
  | nil => exact ⟨fun _ => rfl, fun _ => rfl⟩
  | cons e rest ih =>
    obtain ⟨ih1, ih2⟩ := ih (fun x hx => hadd x (List.mem_cons_of_mem _ hx))
    have h := hadd e (List.mem_cons_self _ _)
    unfold is_append at h
    cases hm : e.msg with
    | add str =>
      constructor
      · intro hs
        by_cases hsd : e.sender = s
        · simp [own_text, fragments_of, hm, hsd, hs, concat_all]
          simpa [fragments_of] using ih1 hs
        · simp [own_text, fragments_of, hm, hsd]
          simpa [fragments_of] using ih1 hs
      · intro hs
        subst hs
        simp only [own_text, hm, ne_eq, not_true_eq_false, and_false, if_false]
        exact ih2 rfl
    | flush => rw [hm] at h; cases h
    | down_msg a b => rw [hm] at h; cases h
    | exit_msg a b => rw [hm] at h; cases h
    | delayed d f t m p => rw [hm] at h; cases h
    | other n => rw [hm] at h; cases h

/-- C11. Atomicity of the output under appends: for every mailbox that holds append
requests only, from any senders and in any interleaving, `printer_loop` returns from
the initial state with its empty map, and

* every write to `std::cout` ends with a line terminator;
* for every valid sender, the texts written for it, one behind the other, followed
  by the text its entry still holds, are its own fragments, one behind the other;
* every line of the output is written for one valid sender only, and its text is a
  connected piece of the fragments of that sender, put one behind the other: a line
  holds fragments of a single sender and nothing else. -/
theorem output_appends_atomic (mailbox : List mailbox_element)
    (hadd : ∀ e ∈ mailbox, is_append e = true) :
    ∃ st tr, printer_loop printer_init mailbox = some (st, tr) ∧
      (∀ text ∈ couts tr, ends_line text = true) ∧
      (∀ s, s ≠ invalid_actor_addr →
        concat_all (writes_for s tr) ++ buffer_of st.out s =
          concat_all (fragments_of s mailbox)) ∧
      ∀ line ∈ sink_lines tr, ∃ s, s ≠ invalid_actor_addr ∧ (∀ a ∈ line, a.1 = s) ∧
        ∃ u v, concat_all (fragments_of s mailbox) = u ++ line.map Prod.snd ++ v := by
  obtain ⟨st, tr, hrun⟩ := printer_loop_total mailbox printer_init
  have hall := printer_loop_idle mailbox printer_init st tr hrun
    (idle_flushes_appends mailbox printer_init hadd)
  have hcons : ∀ s, concat_all (writes_for s tr) ++ buffer_of st.out s =
      own_text s mailbox := by
    intro s
    obtain ⟨st2, tr2, h3, h4⟩ := printer_loop_conserves s mailbox printer_init rfl
    rw [hrun] at h3
    simp only [Option.some.injEq, Prod.mk.injEq] at h3
    rw [h3.1, h3.2, h4]
    rfl
  refine ⟨st, tr, hrun, hall, ?_, ?_⟩
  · intro s hs
    rw [hcons s, (own_text_appends s mailbox hadd).1 hs]
  · intro line hl
    obtain ⟨s, text, hmem, u, v, huv⟩ := sink_lines_within_write tr hall line hl
    have htext : text = u.map Prod.snd ++ line.map Prod.snd ++ v.map Prod.snd := by
      have h := congrArg (List.map Prod.snd) huv
      simpa [List.map_map, Function.comp] using h
    have hwf : text ∈ writes_for s tr := by
      unfold writes_for
      exact List.mem_filterMap.mpr ⟨_, hmem, by simp⟩
    obtain ⟨p, q, hpq⟩ := mem_concat_all _ text hwf
    have hne : text ≠ [] := by
      intro h0
      have h1 := hall text (by
        unfold couts
        exact List.mem_filterMap.mpr ⟨_, hmem, rfl⟩)
      rw [h0] at h1
      simp [ends_line] at h1
    have hs : s ≠ invalid_actor_addr := by
      intro h0
      have h1 := hcons s
      rw [(own_text_appends s mailbox hadd).2 h0, hpq] at h1
      simp only [List.append_eq_nil] at h1
      exact hne h1.1.1.2
    refine ⟨s, hs, ?_, p ++ u.map Prod.snd, v.map Prod.snd ++ q ++ buffer_of st.out s, ?_⟩
    · intro a ha
      have hin : a ∈ text.map (fun c => (s, c)) := by
        rw [huv]; simp [ha]
      obtain ⟨c, _, hc⟩ := List.mem_map.mp hin
      rw [← hc]
    · rw [← (own_text_appends s mailbox hadd).1 hs, ← hcons s, hpq, htext]
      simp

theorem output_appends_atomic_witness :
    printer_loop printer_init sample.mailbox_appends =
      some (⟨true, [(3, []), (2, []), (1, [])]⟩,
        [.monitor 1, .monitor 2, .cout 2 ['x', '\n', 'y', '\n'], .monitor 3,
          .cout 1 ['a', 'b', '\n'], .cout 3 ['p', 'q', '\n']]) ∧
    sink_lines [.monitor 1, .monitor 2, .cout 2 ['x', '\n', 'y', '\n'], .monitor 3,
        .cout 1 ['a', 'b', '\n'], .cout 3 ['p', 'q', '\n']] =
      [[(2, 'x'), (2, '\n')], [(2, 'y'), (2, '\n')], [(1, 'a'), (1, 'b'), (1, '\n')],
        [(3, 'p'), (3, 'q'), (3, '\n')]] ∧
    concat_all (fragments_of 1 sample.mailbox_appends) = ['a', 'b', '\n'] ∧
    ∃ st tr, printer_loop printer_init sample.mailbox_appends = some (st, tr) ∧
      (∀ text ∈ couts tr, ends_line text = true) ∧
      (∀ s, s ≠ invalid_actor_addr →
        concat_all (writes_for s tr) ++ buffer_of st.out s =
          concat_all (fragments_of s sample.mailbox_appends)) ∧
      ∀ line ∈ sink_lines tr, ∃ s, s ≠ invalid_actor_addr ∧ (∀ a ∈ line, a.1 = s) ∧
        ∃ u v, concat_all (fragments_of s sample.mailbox_appends) =
          u ++ line.map Prod.snd ++ v :=
  ⟨by decide, by decide, by decide,
    output_appends_atomic sample.mailbox_appends (by decide)⟩

end caf
